import Mathlib

/-!
Verification of the staticfg control-flow / data-flow analysis engine.

This file gives a shallow embedding of the core of the repository:
the Java CFG builder (`javacfg/builder.py`, `java/cfg_builder.py`),
its graph normalizer `clean_cfg`, the fallback line-based builder
`_build_simple`, the path enumerator (`python/dfg_builder.py`),
the Java data-flow path assembler (`java/dfg_builder.py`) together with
its regex-based variable extractor, and the expression-level DFG builder
(`javacfg/dfg_builder.py`).  Theorems about the claims follow the
definitions.

Python object identity of `Link` objects is modelled by a unique link id
(`lid`); block identity by the block id handed out by the builder's
monotonically increasing counter.  Python lists are Lean lists;
`list.remove` is removal of the first element with the given link id.
-/

namespace StaticCfg

/-- A tree-sitter statement node as used by the builders.  Bodies that are
either a `block` node or a single statement are represented uniformly as
the list of statements that get visited.  `plain` carries the node type
tag used by the string-based dispatch (`expression_statement`,
`return_statement`, `break_statement`, ...).  A `switch_group` models a
`switch_block_statement_group`: `label` is the text of its leading
`switch_label` child (if any) and `stmts` are its non-label children. -/
inductive JNode where
  | plain (typ : String) (text : String) (line : Nat)
  | if_statement (cond_text : String) (cond_line : Nat)
      (consequence : List JNode) (alternative : Option (List JNode))
      (text : String) (line : Nat)
  | while_statement (cond_text : String) (cond_line : Nat)
      (body : List JNode) (text : String) (line : Nat)
  | for_statement (cond : Option (String × Nat)) (body : List JNode)
      (text : String) (line : Nat)
  | enhanced_for_statement (body : List JNode) (text : String) (line : Nat)
  | switch_statement (groups : List JNode) (text : String) (line : Nat)
  | switch_group (label : Option String) (stmts : List JNode) (line : Nat)

/-- The node type string, as exposed by tree-sitter's `node.type`. -/
def JNode.typeOf : JNode → String
  | .plain typ _ _ => typ
  | .if_statement _ _ _ _ _ _ => "if_statement"
  | .while_statement _ _ _ _ _ => "while_statement"
  | .for_statement _ _ _ _ => "for_statement"
  | .enhanced_for_statement _ _ _ => "enhanced_for_statement"
  | .switch_statement _ _ _ => "switch_statement"
  | .switch_group _ _ _ => "switch_block_statement_group"

/-- The raw source text of the node (`node.text.decode()`). -/
def JNode.textOf : JNode → String
  | .plain _ t _ => t
  | .if_statement _ _ _ _ t _ => t
  | .while_statement _ _ _ t _ => t
  | .for_statement _ _ t _ => t
  | .enhanced_for_statement _ t _ => t
  | .switch_statement _ t _ => t
  | .switch_group _ _ _ => ""

/-- 0-based start line of the node (`node.start_point[0]`). -/
def JNode.lineOf : JNode → Nat
  | .plain _ _ l => l
  | .if_statement _ _ _ _ _ l => l
  | .while_statement _ _ _ _ l => l
  | .for_statement _ _ _ l => l
  | .enhanced_for_statement _ _ l => l
  | .switch_statement _ _ l => l
  | .switch_group _ _ l => l

/-- A `Link` object: ordered pair of block ids plus optional exitcase.
`lid` models Python object identity. -/
structure Link where
  lid : Nat
  src : Nat
  tgt : Nat
  exitcase : Option String
deriving DecidableEq, Repr

/-- The block arena of one CFG: per block id, its statement list, its
`exits` list and its `predecessors` list, plus the builder's id counter
and the fresh-link counter. -/
structure Graph where
  stmts : Nat → List JNode
  exits : Nat → List Link
  preds : Nat → List Link
  current_id : Nat
  next_lid : Nat

/-- Pointwise function update. -/
def updf {α : Type} (f : Nat → α) (k : Nat) (v : α) : Nat → α :=
  fun i => if i = k then v else f i

/-- `Block.is_empty`: a block is empty iff it has no statements. -/
def Graph.is_empty (g : Graph) (b : Nat) : Bool :=
  (g.stmts b).isEmpty

/-- `CFGBuilder.add_statement`. -/
def Graph.add_statement (g : Graph) (b : Nat) (n : JNode) : Graph :=
  { g with stmts := updf g.stmts b (g.stmts b ++ [n]) }

/-- `CFGBuilder.add_exit`: create a fresh `Link`, append it to the source
block's exits and to the target block's predecessors. -/
def Graph.add_exit (g : Graph) (b nb : Nat) (exitcase : Option String) : Graph :=
  let L : Link := ⟨g.next_lid, b, nb, exitcase⟩
  { g with
    next_lid := g.next_lid + 1
    exits := updf g.exits b (g.exits b ++ [L])
    preds := updf g.preds nb (g.preds nb ++ [L]) }

/-- `CFGBuilder.new_block`: bump the id counter, return the fresh id. -/
def Graph.new_block (g : Graph) : Graph × Nat :=
  ({ g with current_id := g.current_id + 1 }, g.current_id + 1)

/-- The empty arena. -/
def Graph.init : Graph :=
  { stmts := fun _ => [], exits := fun _ => [], preds := fun _ => []
    current_id := 0, next_lid := 0 }

/-- Builder state: the arena plus the `CFGBuilder`/`CFG` bookkeeping.
Python's stacks push/pop at the end of a list; here the head of the list
is the top of the stack. -/
structure BState where
  g : Graph
  entryblock : Option Nat
  finalblocks : List Nat
  current_block : Nat
  after_loop_block_stack : List Nat
  after_switch_block_stack : List Nat
  curr_loop_guard_stack : List Nat

/-- Python's whitespace test used by `str.strip`. -/
def is_space (c : Char) : Bool :=
  (c == ' ') || (c == '\t') || (c == '\n') || (c == '\r') || (c == '\x0b') || (c == '\x0c')

/-- Python's `str.strip()`: drop leading and trailing whitespace. -/
def strip (s : String) : String :=
  String.mk (((s.data.dropWhile is_space).reverse.dropWhile is_space).reverse)

/-- `CFGBuilder.invert`: syntactic negation of a condition text.  A
condition already starting with `!` is unwrapped, otherwise it is wrapped
as `!(cond)`. -/
def invert (cond_text : String) : String :=
  let c := strip cond_text
  match c.data with
  | '!' :: rest => strip (String.mk rest)
  | _ => ("!(") ++ c ++ (")")

/-- `CFGBuilder.new_loopguard`: reuse the current block when it is empty
and exit-free, otherwise allocate a new block linked from it. -/
def new_loopguard (s : BState) : BState × Nat :=
  if s.g.is_empty s.current_block && (s.g.exits s.current_block).isEmpty then
    (s, s.current_block)
  else
    let (g1, nb) := s.g.new_block
    let g2 := g1.add_exit s.current_block nb none
    ({ s with g := g2 }, nb)

/-- `visit_generic` / `visit_expression_statement` /
`visit_local_variable_declaration`: append the node to the current block;
in per-statement mode also start a fresh linked block. -/
def visit_generic (sep : Bool) (s : BState) (n : JNode) : BState :=
  let s := { s with g := s.g.add_statement s.current_block n }
  if sep then
    let (g1, nb) := s.g.new_block
    let g2 := g1.add_exit s.current_block nb none
    { s with g := g2, current_block := nb }
  else s

/-- `visit_return_statement`. -/
def visit_return_statement (s : BState) (n : JNode) : BState :=
  let s := { s with g := s.g.add_statement s.current_block n }
  let s := { s with finalblocks := s.finalblocks ++ [s.current_block] }
  let (g1, nb) := s.g.new_block
  { s with g := g1, current_block := nb }

/-- `visit_break_statement`. -/
def visit_break_statement (s : BState) : BState :=
  match s.after_switch_block_stack with
  | t :: _ => { s with g := s.g.add_exit s.current_block t none }
  | [] =>
    match s.after_loop_block_stack with
    | t :: _ => { s with g := s.g.add_exit s.current_block t none }
    | [] => s

/-- `visit_continue_statement`. -/
def visit_continue_statement (s : BState) : BState :=
  match s.curr_loop_guard_stack with
  | t :: _ => { s with g := s.g.add_exit s.current_block t none }
  | [] => s

/-- The statement children of a `switch_block_statement_group` node. -/
def group_stmts : JNode → List JNode
  | .switch_group _ stmts _ => stmts
  | _ => []

/-- The label of a `switch_block_statement_group` node. -/
def group_label : JNode → Option String
  | .switch_group lab _ _ => lab
  | _ => none

theorem sizeOf_filter_le (p : JNode → Bool) (l : List JNode) :
    sizeOf (l.filter p) ≤ sizeOf l := by
  induction l with
  | nil => simp
  | cons a t ih =>
    simp only [List.filter]
    cases p a <;> simp <;> try omega

theorem sizeOf_getD_le (o : Option (List JNode)) :
    sizeOf (o.getD []) ≤ sizeOf o := by
  cases o <;> simp [Option.getD]

theorem sizeOf_group_stmts_le (n : JNode) : sizeOf (group_stmts n) ≤ sizeOf n := by
  cases n <;> simp [group_stmts] <;> omega

/-- The per-group loop of `visit_switch_expression`, parametrised by the
statement-list visitor. -/
def visit_switch_groups_gen (vl : BState → List JNode → BState) (s : BState)
    (dispatch after_switch : Nat) (gs : List JNode) : BState :=
  match gs with
  | [] => s
  | grp :: rest =>
    let (g1, case_block) := s.g.new_block
    let s := { s with g := g1.add_exit dispatch case_block (group_label grp) }
    let (s, next_dispatch) :=
      if rest.isEmpty then
        ({ s with g := s.g.add_exit dispatch after_switch none }, after_switch)
      else
        let (g2, nd) := s.g.new_block
        ({ s with g := g2.add_exit dispatch nd none }, nd)
    let s := { s with current_block := case_block }
    let s := vl s (group_stmts grp)
    let s :=
      if (s.g.exits s.current_block).isEmpty then
        { s with g := s.g.add_exit s.current_block after_switch none }
      else s
    visit_switch_groups_gen vl s next_dispatch after_switch rest

/-- `CFGBuilder.visit`: dispatch on the node type.  The extra fuel
argument bounds only the recursion depth: the Python recursion descends
once per nesting level of the AST, so any fuel larger than the nesting
depth (for instance `sizeOf` of the node) reproduces it exactly. -/
def visit (sep : Bool) : Nat → BState → JNode → BState
  | 0, s, _ => s
  | fuel + 1, s, n =>
  match n with
  | .plain typ _ _ =>
    if typ = "return_statement" then visit_return_statement s n
    else if typ = "break_statement" then visit_break_statement s
    else if typ = "continue_statement" then visit_continue_statement s
    else visit_generic sep s n
  | .if_statement cond_text _ consequence alternative _ _ =>
    let s := { s with g := s.g.add_statement s.current_block n }
    let (g1, if_block) := s.g.new_block
    let s := { s with g := g1.add_exit s.current_block if_block (some cond_text) }
    let (g2, after_if) := s.g.new_block
    let s := { s with g := g2 }
    let s :=
      if alternative.isSome then
        let (g3, else_block) := s.g.new_block
        let s := { s with
          g := g3.add_exit s.current_block else_block (some (invert cond_text))
          current_block := else_block }
        let s := (alternative.getD []).foldl (visit sep fuel) s
        if (s.g.exits s.current_block).isEmpty then
          { s with g := s.g.add_exit s.current_block after_if none }
        else s
      else
        { s with g := s.g.add_exit s.current_block after_if (some (invert cond_text)) }
    let s := { s with current_block := if_block }
    let s := consequence.foldl (visit sep fuel) s
    let s :=
      if (s.g.exits s.current_block).isEmpty then
        { s with g := s.g.add_exit s.current_block after_if none }
      else s
    { s with current_block := after_if }
  | .while_statement cond_text _ body _ _ =>
    let (s, loop_guard) := new_loopguard s
    let s := { s with current_block := loop_guard }
    let s := { s with g := s.g.add_statement s.current_block n }
    let s := { s with curr_loop_guard_stack := loop_guard :: s.curr_loop_guard_stack }
    let (g1, while_block) := s.g.new_block
    let s := { s with g := g1.add_exit s.current_block while_block (some cond_text) }
    let (g2, after_while) := s.g.new_block
    let s := { s with g := g2
                      after_loop_block_stack := after_while :: s.after_loop_block_stack }
    let s := { s with g := s.g.add_exit s.current_block after_while (some (invert cond_text)) }
    let s := { s with current_block := while_block }
    let s := body.foldl (visit sep fuel) s
    let s :=
      if (s.g.exits s.current_block).isEmpty then
        { s with g := s.g.add_exit s.current_block loop_guard none }
      else s
    { s with current_block := after_while
             after_loop_block_stack := s.after_loop_block_stack.tail
             curr_loop_guard_stack := s.curr_loop_guard_stack.tail }
  | .for_statement cond body _ _ =>
    let (s, loop_guard) := new_loopguard s
    let s := { s with current_block := loop_guard }
    let s := { s with g := s.g.add_statement s.current_block n }
    let cond_text : Option String := cond.map (fun c => c.1)
    let s := { s with curr_loop_guard_stack := loop_guard :: s.curr_loop_guard_stack }
    let (g1, for_block) := s.g.new_block
    let s := { s with g := g1 }
    let (s, after_for) :=
      match cond_text with
      | some t =>
        if t = "" then
          let s := { s with g := s.g.add_exit s.current_block for_block none }
          let (g2, after_for) := s.g.new_block
          ({ s with g := g2.add_exit s.current_block after_for none }, after_for)
        else
          let s := { s with g := s.g.add_exit s.current_block for_block (some t) }
          let (g2, after_for) := s.g.new_block
          ({ s with g := g2.add_exit s.current_block after_for (some (invert t)) }, after_for)
      | none =>
        let s := { s with g := s.g.add_exit s.current_block for_block none }
        let (g2, after_for) := s.g.new_block
        ({ s with g := g2.add_exit s.current_block after_for none }, after_for)
    let s := { s with after_loop_block_stack := after_for :: s.after_loop_block_stack }
    let s := { s with current_block := for_block }
    let s := body.foldl (visit sep fuel) s
    let s :=
      if (s.g.exits s.current_block).isEmpty then
        { s with g := s.g.add_exit s.current_block loop_guard none }
      else s
    { s with current_block := after_for
             after_loop_block_stack := s.after_loop_block_stack.tail
             curr_loop_guard_stack := s.curr_loop_guard_stack.tail }
  | .enhanced_for_statement body _ _ =>
    let (s, loop_guard) := new_loopguard s
    let s := { s with current_block := loop_guard }
    let s := { s with g := s.g.add_statement s.current_block n }
    let s := { s with curr_loop_guard_stack := loop_guard :: s.curr_loop_guard_stack }
    let (g1, for_block) := s.g.new_block
    let s := { s with g := g1.add_exit s.current_block for_block none }
    let (g2, after_for) := s.g.new_block
    let s := { s with g := g2.add_exit s.current_block after_for none }
    let s := { s with after_loop_block_stack := after_for :: s.after_loop_block_stack }
    let s := { s with current_block := for_block }
    let s := body.foldl (visit sep fuel) s
    let s :=
      if (s.g.exits s.current_block).isEmpty then
        { s with g := s.g.add_exit s.current_block loop_guard none }
      else s
    { s with current_block := after_for
             after_loop_block_stack := s.after_loop_block_stack.tail
             curr_loop_guard_stack := s.curr_loop_guard_stack.tail }
  | .switch_statement groups _ _ =>
    let s := { s with g := s.g.add_statement s.current_block n }
    let (g1, after_switch) := s.g.new_block
    let s := { s with g := g1
                      after_switch_block_stack := after_switch :: s.after_switch_block_stack }
    let grps := groups.filter (fun c => c.typeOf = "switch_block_statement_group")
    let s := visit_switch_groups_gen (fun s2 ns => ns.foldl (visit sep fuel) s2) s s.current_block after_switch grps
    { s with current_block := after_switch
             after_switch_block_stack := s.after_switch_block_stack.tail }
  | .switch_group _ _ _ => visit_generic sep s n

/-- `visit_block`: visit the children in order. -/
def visit_list (sep : Bool) (fuel : Nat) (s : BState) (ns : List JNode) : BState :=
  ns.foldl (visit sep fuel) s

/-- The initial builder state of `CFGBuilder.build`: a fresh arena with one
new block (id 1) registered as the entry block and current block. -/
def init_bstate : BState :=
  let (g1, entry) := Graph.init.new_block
  { g := g1, entryblock := some entry, finalblocks := [], current_block := entry
    after_loop_block_stack := [], after_switch_block_stack := []
    curr_loop_guard_stack := [] }

/-- `CFGBuilder.build` before the `clean_cfg` pass: visit the body.  The
fuel only bounds the visitor's nesting depth; any fuel larger than the
AST nesting depth reproduces the Python builder exactly. -/
def build_raw (sep : Bool) (fuel : Nat) (body : List JNode) : BState :=
  visit_list sep fuel init_bstate body

/-! ### The graph normalizer `clean_cfg` -/

/-- `x in list`, by link identity. -/
def containsLid (l : List Link) (lid : Nat) : Bool :=
  l.any (fun L => L.lid = lid)

/-- Python's `list.remove`: remove the first occurrence (by identity). -/
def removeLid : List Link → Nat → List Link
  | [], _ => []
  | L :: rest, lid => if L.lid = lid then rest else L :: removeLid rest lid

/-- One iteration of the inner loop of `clean_cfg` on an empty block: for a
predecessor link `p` and an exit link `e`, add a direct link from `p`'s
source to `e`'s target carrying `e`'s exitcase, then remove `e` from its
target's predecessor list if still present. -/
def splice_step (g : Graph) (p e : Link) : Graph :=
  let g1 := g.add_exit p.src e.tgt e.exitcase
  if containsLid (g1.preds e.tgt) e.lid then
    { g1 with preds := updf g1.preds e.tgt (removeLid (g1.preds e.tgt) e.lid) }
  else g1

/-- The inner `for exit in list(block.exits)` loop for one predecessor. -/
def splice_exits (g : Graph) (p : Link) : List Link → Graph
  | [] => g
  | e :: es => splice_exits (splice_step g p e) p es

/-- One iteration of the outer loop: splice all exits for predecessor `p`,
then remove `p` from its source's exits list if still present. -/
def process_pred (g : Graph) (b : Nat) (p : Link) : Graph :=
  let g2 := splice_exits g p (g.exits b)
  if containsLid (g2.exits p.src) p.lid then
    { g2 with exits := updf g2.exits p.src (removeLid (g2.exits p.src) p.lid) }
  else g2

/-- The outer `for pred in list(block.predecessors)` loop of `clean_cfg`
on an empty block (iterating over a snapshot of the predecessor list). -/
def splice_empty (g : Graph) (b : Nat) : List Link → Graph
  | [] => g
  | p :: ps => splice_empty (process_pred g b p) b ps

/-- `CFGBuilder.clean_cfg`, with explicit fuel bounding the recursion
depth.  Every level of the Python recursion either returns at once (the
block is already visited) or adds one block to the visited list before
descending, so the recursion depth is bounded by the number of distinct
blocks; any fuel beyond that bound reproduces the Python function
exactly (`clean_cfg_spec` works with such fuel). -/
def clean_cfg (fuel : Nat) (g : Graph) (b : Nat) (visited : List Nat) :
    Graph × List Nat :=
  match fuel with
  | 0 => (g, visited)
  | fuel + 1 =>
    if b ∈ visited then (g, visited)
    else
      let visited := visited ++ [b]
      if g.is_empty b then
        let g := splice_empty g b (g.preds b)
        let r := (g.exits b).foldl
          (fun r e => clean_cfg fuel r.1 e.tgt r.2) (g, visited)
        ({ r.1 with preds := updf r.1.preds b [], exits := updf r.1.exits b [] }, r.2)
      else
        (g.exits b).foldl (fun r e => clean_cfg fuel r.1 e.tgt r.2) (g, visited)

/-- The recursive descent into the exit targets (over a snapshot list),
as used by `clean_cfg` at the next lower fuel. -/
def clean_children (fuel : Nat) (g : Graph) (ts : List Link) (visited : List Nat) :
    Graph × List Nat :=
  ts.foldl (fun r e => clean_cfg fuel r.1 e.tgt r.2) (g, visited)

/-- `CFGBuilder.build`: visit the body, then normalize starting at the
entry block (id 1) with enough fuel for every block. -/
def build (sep : Bool) (fuel : Nat) (body : List JNode) : BState :=
  let s := build_raw sep fuel body
  { s with g := (clean_cfg (s.g.current_id + 1) s.g 1 []).1 }

/-! ### The normalized graph shape targeted by `clean_cfg` -/

/-- A graph is in normalized shape when every empty block is fully
detached: no predecessor links and no exit links.  `clean_cfg` puts every
block it visits into this shape (it clears both lists of each empty block
after splicing it out). -/
def Cleaned (g : Graph) : Prop :=
  ∀ b : Nat, g.is_empty b = true → g.preds b = [] ∧ g.exits b = []

/-- Statement table of a small hand-built normalized graph. -/
def cl_stmts : Nat → List JNode
  | 1 => [JNode.plain ("expression_statement") ("a = 1;") 0]
  | 2 => [JNode.plain ("expression_statement") ("b = a;") 1]
  | 3 => [JNode.plain ("return_statement") ("return b;") 2]
  | _ => []

/-- Exit links of the hand-built normalized graph: 1 → 2 → 3. -/
def cl_exits : Nat → List Link
  | 1 => [⟨0, 1, 2, none⟩]
  | 2 => [⟨1, 2, 3, some ("c")⟩]
  | _ => []

/-- Predecessor links of the hand-built normalized graph. -/
def cl_preds : Nat → List Link
  | 2 => [⟨0, 1, 2, none⟩]
  | 3 => [⟨1, 2, 3, some ("c")⟩]
  | _ => []

/-- A hand-built graph in normalized shape: three nonempty blocks in a
chain, every other block detached. -/
def cl_graph : Graph :=
  { stmts := cl_stmts, exits := cl_exits, preds := cl_preds,
    current_id := 3, next_lid := 2 }

/-- Builder input whose then-branch is an empty block (the break inside a
bare loop/switch-free context is a no-op, so the branch block stays empty
and exitless). -/
def cex1_body : List JNode :=
  [JNode.if_statement ("c") 0 [JNode.plain ("break_statement") ("break;") 0]
    none ("if (c) break;") 0]

/-- Builder input with an empty then-branch and an empty else-branch, so
normalization splices both branch blocks out. -/
def cex2_body : List JNode :=
  [JNode.plain ("expression_statement") ("x = 0;") 0,
   JNode.if_statement ("c") 1 [] (some []) ("ifelse") 1,
   JNode.plain ("return_statement") ("return x;") 2]

/-- Statement table of a small hand-built graph whose block 2 is empty. -/
def sp_stmts : Nat → List JNode
  | 1 => [JNode.plain ("expression_statement") ("a = 1;") 0]
  | 3 => [JNode.plain ("return_statement") ("return a;") 2]
  | _ => []

/-- Exit links of the hand-built graph: 1 → 2 labelled, 2 → 3 unlabelled. -/
def sp_exits : Nat → List Link
  | 1 => [⟨0, 1, 2, some ("c")⟩]
  | 2 => [⟨1, 2, 3, none⟩]
  | _ => []

/-- Predecessor links of the hand-built graph. -/
def sp_preds : Nat → List Link
  | 2 => [⟨0, 1, 2, some ("c")⟩]
  | 3 => [⟨1, 2, 3, none⟩]
  | _ => []

/-- A hand-built graph with one empty block (block 2) between two nonempty
blocks, entered over a labelled link and left over an unlabelled one. -/
def sp_graph : Graph :=
  { stmts := sp_stmts, exits := sp_exits, preds := sp_preds,
    current_id := 3, next_lid := 2 }

/-! ### Well-formedness of the link structure (claim C2) -/

/-- Core structural well-formedness of the link arena: every exits entry
starts at its block and every predecessors entry ends at its block; link
identities are duplicate-free within each list and globally injective on
each side; all identities are below the fresh-link counter, endpoints are
within the allocated id range, and blocks beyond the id counter have no
links. -/
structure Core (g : Graph) : Prop where
  srcOK : ∀ x L, L ∈ g.exits x → L.src = x
  tgtOK : ∀ x L, L ∈ g.preds x → L.tgt = x
  exNodup : ∀ x, ((g.exits x).map Link.lid).Nodup
  prNodup : ∀ x, ((g.preds x).map Link.lid).Nodup
  exInj : ∀ x y L M, L ∈ g.exits x → M ∈ g.exits y → L.lid = M.lid → L = M
  prInj : ∀ x y L M, L ∈ g.preds x → M ∈ g.preds y → L.lid = M.lid → L = M
  exLid : ∀ x L, L ∈ g.exits x → L.lid < g.next_lid
  prLid : ∀ x L, L ∈ g.preds x → L.lid < g.next_lid
  exB : ∀ x L, L ∈ g.exits x → L.src ≤ g.current_id ∧ L.tgt ≤ g.current_id
  prB : ∀ x L, L ∈ g.preds x → L.src ≤ g.current_id ∧ L.tgt ≤ g.current_id
  hiE : ∀ x, g.current_id < x → g.exits x = []
  hiP : ∀ x, g.current_id < x → g.preds x = []

/-- Full link invariant relative to a pending list `X` (the empty blocks
currently being spliced by enclosing `clean_cfg` frames, whose own two
link lists are exempt until they are cleared): two-sided consistency of
every non-pending list, no link crossing into or out of a pending block
from a non-pending list, and a rank certificate `rk` decreasing along
links between empty blocks (so no cycles among empty blocks).  Every
field holds of the graphs the builder constructs, including bodies where
dead code after a return leaves an empty predecessor-less block with an
exit. -/
structure INV (rk : Nat → Nat) (g : Graph) (X : List Nat) : Prop where
  core : Core g
  tsE : ∀ x, x ∉ X → ∀ L ∈ g.exits x, L ∈ g.preds L.tgt
  tsP : ∀ x, x ∉ X → ∀ L ∈ g.preds x, L ∈ g.exits L.src
  intoX : ∀ x, x ∉ X → ∀ L ∈ g.exits x, L.tgt ∉ X
  fromX : ∀ x, x ∉ X → ∀ L ∈ g.preds x, L.src ∉ X
  rkOK : ∀ x, ∀ L ∈ g.exits x, g.is_empty x = true → g.is_empty L.tgt = true →
    rk L.tgt < rk x

/-- Loop invariant of the splice loop `clean_cfg` runs on an empty block
`b` with frozen exits snapshot `E`, frozen predecessors snapshot `ps0`,
link-identity threshold `t` (the fresh-link counter at loop entry), id
counter `cid` and emptiness table `emp`. -/
structure SST (rk : Nat → Nat) (X : List Nat) (b t cid : Nat)
    (E ps0 : List Link) (emp : Nat → Bool) (g : Graph) : Prop where
  core : Core g
  tsEx : ∀ x, x ∉ X → x ≠ b → ∀ L ∈ g.exits x, L ∈ g.preds L.tgt
  tsPx : ∀ x, x ∉ X → x ≠ b → ∀ L ∈ g.preds x, L ∈ g.exits L.src
  intoX : ∀ x, x ∉ X → ∀ L ∈ g.exits x, L.tgt ∉ X
  fromX : ∀ x, x ∉ X → ∀ L ∈ g.preds x, L.src ∉ X
  rkOK : ∀ x, ∀ L ∈ g.exits x, g.is_empty x = true → g.is_empty L.tgt = true →
    rk L.tgt < rk x
  exb : g.exits b = E
  prb : g.preds b = ps0
  cidOK : g.current_id = cid
  tle : t ≤ g.next_lid
  eOwn : ∀ e ∈ E, ∀ y, ∀ M ∈ g.preds y, M.lid = e.lid → M = e
  pOwn : ∀ p ∈ ps0, ∀ y, ∀ M ∈ g.exits y, M.lid = p.lid → M = p
  empOK : ∀ x, g.is_empty x = emp x

/-- Positional splice-loop clause: every exits-list link into `b` outside
the pending lists is one of the still-unprocessed predecessor links. -/
def RemInto (X : List Nat) (b : Nat) (ps : List Link) (g : Graph) : Prop :=
  ∀ x, x ∉ X → x ≠ b → ∀ L ∈ g.exits x, L.tgt = b → L ∈ ps

/-- Positional splice-loop clause: every predecessors-list link out of `b`
outside the pending lists is one of the still-unremoved exit links. -/
def FromB (X : List Nat) (b : Nat) (es : List Link) (g : Graph) : Prop :=
  ∀ x, x ∉ X → ∀ L ∈ g.preds x, L.src = b → L ∈ es

/-- Positional splice-loop clause: each remaining predecessor link still
sits in its source block's exits list. -/
def PresentAll (ps : List Link) (g : Graph) : Prop :=
  ∀ p ∈ ps, p ∈ g.exits p.src

/-- Final step of `clean_cfg` on an empty block: clear both link lists. -/
def clear_blk (g : Graph) (b : Nat) : Graph :=
  { g with preds := updf g.preds b [], exits := updf g.exits b [] }

/-- Builder input whose loop body has dead code after a return: the
return statement opens a fresh block with no predecessors and the break
then gives that block an exit link, so the raw graph contains an empty
predecessor-less block with a nonempty exits list. -/
def wrb_body : List JNode :=
  [JNode.while_statement ("c") 0
    [JNode.plain ("return_statement") ("return x;") 1,
     JNode.plain ("break_statement") ("break;") 2] ("while (c)") 0]

/-! ### The fallback builder `_build_simple` (java/cfg_builder.py) -/

/-- The loop of `_build_simple` over the non-blank stripped body lines,
threading the previous block. -/
def build_simple_aux (s : BState) (prev : Option Nat) :
    List (Nat × String) → BState
  | [] =>
    match prev with
    | some p => { s with finalblocks := s.finalblocks ++ [p] }
    | none => s
  | (ln, stmt) :: rest =>
    let (g1, blk) := s.g.new_block
    let g2 := g1.add_statement blk (JNode.plain ("statement") stmt ln)
    let s := { s with g := g2 }
    let s :=
      match prev with
      | none => { s with entryblock := some blk }
      | some p => { s with g := s.g.add_exit p blk none }
    build_simple_aux s (some blk) rest

/-- The non-blank stripped lines of the body, with their 0-based index:
`[(ln, line.strip()) for ln, line in enumerate(body.splitlines()) if line.strip()]`. -/
def simple_lines (body_lines : List String) : List (Nat × String) :=
  body_lines.enum.filterMap
    (fun p => if strip p.2 = "" then none else some (p.1, strip p.2))

/-- The initial state of `_build_simple`: fresh arena, no entry block. -/
def simple_init : BState :=
  { g := Graph.init, entryblock := none, finalblocks := [], current_block := 0
    after_loop_block_stack := [], after_switch_block_stack := []
    curr_loop_guard_stack := [] }

/-- `CFGBuilder._build_simple`, taking the already-extracted body lines:
each non-blank line becomes its own single-statement block, blocks are
linked unconditionally in source order, the last block is registered as
the sole final block. -/
def build_simple (body_lines : List String) : BState :=
  build_simple_aux simple_init none (simple_lines body_lines)

/-! ### The variable-occurrence extractor (java/dfg_builder.py, _VarVisitor) -/

/-- `\w`: a word character `[a-zA-Z0-9_]`. -/
def is_word_char (c : Char) : Bool :=
  c.isAlpha || c.isDigit || (c == '_')

/-- A character that can start an identifier: `[a-zA-Z_]`. -/
def is_ident_start (c : Char) : Bool :=
  c.isAlpha || (c == '_')

/-- Split a text into its maximal runs of word characters, in order
(the second argument accumulates the current run, reversed). -/
def word_runs_aux : List Char → List Char → List (List Char)
  | [], run => if run.isEmpty then [] else [run.reverse]
  | c :: rest, run =>
    if is_word_char c then word_runs_aux rest (c :: run)
    else if run.isEmpty then word_runs_aux rest []
    else run.reverse :: word_runs_aux rest []

/-- The maximal word-character runs of a text. -/
def word_runs (l : List Char) : List (List Char) :=
  word_runs_aux l []

/-- The matches of the word-bounded identifier pattern in order: the
maximal word-char runs whose first character is a letter or underscore (a
run starting with a digit yields no match because of `\b`). -/
def tokens_b (l : List Char) : List (List Char) :=
  (word_runs l).filter
    (fun run =>
      match run with
      | c :: _ => is_ident_start c
      | [] => false)

/-- The matches of `[A-Za-z_][A-Za-z0-9_]*` in order (no word boundary):
within each maximal word-char run, the match starts at the first letter
or underscore and extends to the end of the run. -/
def tokens_nb (l : List Char) : List (List Char) :=
  (word_runs l).filterMap
    (fun run =>
      match run.dropWhile (fun ch => !(is_ident_start ch)) with
      | [] => none
      | c :: cs => some (c :: cs))

/-- Removal of line comments (`//` to end of line, `re.MULTILINE`), as a
state machine: state 0 = normal, 1 = just saw a slash, 2 = inside a line
comment (the terminating newline is kept). -/
def remove_line_comments_aux : List Char → Nat → List Char
  | [], st => if st = 1 then [('/')] else []
  | c :: rest, 0 =>
    if c = '/' then remove_line_comments_aux rest 1
    else c :: remove_line_comments_aux rest 0
  | c :: rest, 1 =>
    if c = '/' then remove_line_comments_aux rest 2
    else ('/') :: c :: remove_line_comments_aux rest 0
  | c :: rest, 2 =>
    if c = '\n' then c :: remove_line_comments_aux rest 0
    else remove_line_comments_aux rest 2
  | _ :: _, _ + 3 => []

/-- `re.sub` of the line-comment pattern. -/
def remove_line_comments (l : List Char) : List Char :=
  remove_line_comments_aux l 0

/-- Removal of block comments (non-greedy, `re.DOTALL`), as a state
machine: state 0 = normal, 1 = just saw a slash, 2 = inside a comment,
3 = inside a comment just after a star.  The buffer holds the pending
comment text (reversed) so that an unterminated comment is emitted
unchanged (the pattern cannot match it). -/
def remove_block_comments_aux : List Char → Nat → List Char → List Char
  | [], 1, _ => [('/')]
  | [], 2, buf => buf.reverse
  | [], 3, buf => buf.reverse
  | [], _, _ => []
  | c :: rest, 0, _ =>
    if c = '/' then remove_block_comments_aux rest 1 []
    else c :: remove_block_comments_aux rest 0 []
  | c :: rest, 1, _ =>
    if c = '*' then remove_block_comments_aux rest 2 [('*'), ('/')]
    else if c = '/' then ('/') :: remove_block_comments_aux rest 1 []
    else ('/') :: c :: remove_block_comments_aux rest 0 []
  | c :: rest, 2, buf =>
    if c = '*' then remove_block_comments_aux rest 3 (c :: buf)
    else remove_block_comments_aux rest 2 (c :: buf)
  | c :: rest, 3, buf =>
    if c = '/' then remove_block_comments_aux rest 0 []
    else if c = '*' then remove_block_comments_aux rest 3 (c :: buf)
    else remove_block_comments_aux rest 2 (c :: buf)
  | _ :: _, _ + 4, _ => []

/-- `re.sub` of the block-comment pattern. -/
def remove_block_comments (l : List Char) : List Char :=
  remove_block_comments_aux l 0 []

/-- The contents of the double-quoted string literals of the text, in
order (an unterminated literal yields no match). -/
def scan_literals_aux : List Char → Option (List Char) → List (List Char)
  | [], _ => []
  | c :: rest, none =>
    if c = '"' then scan_literals_aux rest (some [])
    else scan_literals_aux rest none
  | c :: rest, some buf =>
    if c = '"' then buf.reverse :: scan_literals_aux rest none
    else scan_literals_aux rest (some (c :: buf))

/-- The contents of the string-literal matches, in order. -/
def scan_literals (l : List Char) : List (List Char) :=
  scan_literals_aux l none

/-- `pat` is a prefix of `l`. -/
def leads : List Char → List Char → Bool
  | [], _ => true
  | _ :: _, [] => false
  | p :: ps, c :: cs => p == c && leads ps cs

/-- `pat in text`: Python substring containment. -/
def occurs_in (pat : List Char) : List Char → Bool
  | [] => pat.isEmpty
  | c :: rest => leads pat (c :: rest) || occurs_in pat rest

/-- The reserved keywords skipped by `_VarVisitor`. -/
def var_keywords : List String :=
  [("if"), ("else"), ("while"), ("for"), ("switch"), ("case"), ("default"),
   ("return"), ("break"), ("continue"), ("new"), ("this"), ("super"),
   ("true"), ("false"), ("null"), ("public"), ("private"), ("protected"),
   ("static"), ("final"), ("void"), ("int"), ("double"), ("float"),
   ("boolean"), ("char"), ("byte"), ("short"), ("long"), ("String")]

/-- `_VarVisitor.visit`: extract the identifier occurrences of a
statement's source text, skipping keywords, identifiers equal to the full
contents of some string literal, and identifiers `m` for which
`return "m"` occurs in the text. -/
def var_visit (text : String) (lineno : Nat) : List (String × Nat) :=
  let t1 := remove_line_comments text.data
  let t2 := remove_block_comments t1
  let lits := scan_literals t2
  let toks := tokens_b t2
  toks.filterMap (fun tok =>
    if var_keywords.contains (String.mk tok) || lits.contains tok then none
    else if occurs_in tok t2
            && occurs_in ((("return \"").data ++ tok ++ [('"')])) t2 then none
    else some (String.mk tok, lineno))

/-- `_var_occurrences`: visit the node's text at its 1-based line. -/
def var_occurrences (n : JNode) : List (String × Nat) :=
  var_visit n.textOf (n.lineOf + 1)

/-- Does the string start with an uppercase character? -/
def starts_upper (s : String) : Bool :=
  match s.data with
  | c :: _ => c.isUpper
  | [] => false

/-- `_stmt_occurrences`: condition-only extraction for `if`/`while`/`for`
statements, the capitalised-type-name filter for declarations, and full
text extraction otherwise. -/
def stmt_occurrences (stmt : JNode) : List (String × Nat) :=
  match stmt with
  | .if_statement cond_text cond_line _ _ _ _ => var_visit cond_text (cond_line + 1)
  | .while_statement cond_text cond_line _ _ _ => var_visit cond_text (cond_line + 1)
  | .for_statement cond _ _ _ =>
    match cond with
    | some c => var_visit c.1 (c.2 + 1)
    | none => []
  | .plain typ _ _ =>
    if typ = "local_variable_declaration" then
      (var_occurrences stmt).filter (fun o =>
        !(starts_upper o.1
          && !([("Integer"), ("String"), ("Boolean")].contains o.1)))
    else var_occurrences stmt
  | _ => var_occurrences stmt

/-! ### The Java data-flow path assembler (java/dfg_builder.py) -/

/-- An occurrence: a variable name with its 1-based source line. -/
abbrev Occ := String × Nat

/-- `DFGBuilder._block_occurrences`: the per-statement occurrences of a
block, filtered by the tracked-name restriction and deduplicated within
the block (first occurrence kept). -/
def block_occurrences (names : Option (List String)) (g : Graph) (b : Nat) :
    List Occ :=
  (g.stmts b).foldl
    (fun occs stmt =>
      (stmt_occurrences stmt).foldl
        (fun occs o =>
          if (match names with
              | none => true
              | some ns => ns.contains o.1) then
            if occs.contains o then occs else occs ++ [o]
          else occs)
        occs)
    []

/-- `DFGBuilder._dfs` with explicit fuel: walk the graph accumulating the
data-flow path; a block already in the branch-local visited set is not
revisited; at a final block the accumulated path is emitted if non-empty.
Occurrences of a block are appended only when the incoming path is empty
or their name equals the name of the incoming path's first element. -/
def dfg_dfs (fuel : Nat) (g : Graph) (fins : List Nat)
    (names : Option (List String)) (b : Nat) (path : List Occ)
    (vis : List Nat) : List (List Occ) :=
  match fuel with
  | 0 => []
  | fuel + 1 =>
    if b ∈ vis then []
    else
      let vis := b :: vis
      let occs := block_occurrences names g b
      let updated := path ++
        (match path with
         | [] => occs
         | p0 :: _ => occs.filter (fun o => o.1 == p0.1))
      if b ∈ fins then (if updated.isEmpty then [] else [updated])
      else (g.exits b).flatMap (fun e => dfg_dfs fuel g fins names e.tgt updated vis)

/-- Append `x` to the list stored under `k` in an insertion-ordered
association list (Python dict semantics). -/
def assoc_append {α : Type} (acc : List (String × List α)) (k : String) (x : α) :
    List (String × List α) :=
  if acc.any (fun p => p.1 == k) then
    acc.map (fun p => if p.1 == k then (p.1, p.2 ++ [x]) else p)
  else acc ++ [(k, [x])]

/-- Group the start occurrences by variable name, preserving first-seen
order (the `var_paths` dict of `build_paths`). -/
def group_starts (starts : List Occ) : List (String × List Occ) :=
  starts.foldl (fun acc o => assoc_append acc o.1 o) []

/-- The `unique` filter at the end of `build_paths`: keep non-empty paths,
first occurrence only. -/
def unique_paths (results : List (List Occ)) : List (List Occ) :=
  results.foldl
    (fun u p => if !p.isEmpty && !u.contains p then u ++ [p] else u) []

/-- `DFGBuilder.build_paths` (separated mode, the code's fixed
`track_separately = True`): one seeded walk per distinct start variable,
one unseeded walk, then deduplication. -/
def build_paths (fuel : Nat) (g : Graph) (fins : List Nat) (entry : Nat)
    (names : Option (List String)) (starts : List Occ) : List (List Occ) :=
  let groups := group_starts starts
  let seeded := groups.flatMap (fun gr => dfg_dfs fuel g fins names entry gr.2 [])
  let results := seeded ++ dfg_dfs fuel g fins names entry [] []
  unique_paths results

/-- The variable owning a path: the name of its first occurrence. -/
def head_var : List Occ → Option String
  | [] => none
  | p0 :: _ => some p0.1

/-- The grouping of final paths by their leading variable name used by
`write_paths` (insertion-ordered dict of lists; empty paths are
skipped). -/
def group_by_var (paths : List (List Occ)) : List (String × List (List Occ)) :=
  paths.foldl
    (fun acc path =>
      match head_var path with
      | none => acc
      | some v => assoc_append acc v path)
    []

/-! ### The path enumerator (python/dfg_builder.py, _enumerate_paths) -/

/-- `_enumerate_paths`'s recursive `dfs` with explicit fuel: the current
block is appended to the growing path; the path is emitted at a final
block or a block without exits; otherwise the walk branches into every
exit whose target is not already on the current path. -/
def enum_dfs (fuel : Nat) (g : Graph) (fins : List Nat) (b : Nat)
    (cur : List Nat) : List (List Nat) :=
  match fuel with
  | 0 => []
  | fuel + 1 =>
    let cur := cur ++ [b]
    if b ∈ fins ∨ (g.exits b).isEmpty then [cur]
    else
      (g.exits b).flatMap
        (fun e => if e.tgt ∈ cur then [] else enum_dfs fuel g fins e.tgt cur)

/-- `_enumerate_paths`: depth-first enumeration from the entry block. -/
def enumerate_paths (fuel : Nat) (g : Graph) (fins : List Nat) (entry : Nat) :
    List (List Nat) :=
  enum_dfs fuel g fins entry []

/-! ### The expression-level DFG builder (javacfg/dfg_builder.py) -/

/-- `str.rstrip(';')`. -/
def rstrip_semi (s : String) : String :=
  String.mk (s.data.reverse.dropWhile (fun c => c == ';')).reverse

/-- Keep the first occurrence of each element (`dict.fromkeys`). -/
def dedup_keep_first (l : List (List Char)) : List (List Char) :=
  l.foldl (fun acc x => if acc.contains x then acc else acc ++ [x]) []

/-- `DFGBuilder.get_vars`: the distinct identifier-like tokens of a text,
in first-seen order. -/
def get_vars (text : String) : List String :=
  (dedup_keep_first (tokens_nb text.data)).map String.mk

/-- The state of the expression-level `DFGBuilder`: the accumulated node
list (name, depends_on) and the condition currently in scope. -/
structure DState where
  nodes : List (String × List String)
  current_cond : Option String

/-- `DFGBuilder.add_node`. -/
def DState.add_node (s : DState) (name : String) (deps : List String) : DState :=
  { s with nodes := s.nodes ++ [(name, deps)] }

mutual

/-- `DFGBuilder.visit` of the expression-level DFG builder. -/
def dfg_visit (s : DState) (n : JNode) : DState :=
  match n with
  | .plain typ text _ =>
    if typ = "expression_statement" ∨ typ = "local_variable_declaration" then
      let expr := rstrip_semi text
      let deps := get_vars expr
      let deps :=
        match s.current_cond with
        | some c => deps ++ [c]
        | none => deps
      s.add_node expr deps
    else if typ = "return_statement" then
      let expr := rstrip_semi (strip (String.mk (text.data.drop 6)))
      let vs := get_vars expr
      let deps :=
        match s.current_cond with
        | some c => [c]
        | none => vs
      s.add_node (if expr = "" then ("return") else expr) deps
    else s
  | .if_statement cond_text _ consequence alternative _ _ =>
    let s := s.add_node cond_text (get_vars cond_text)
    let prev := s.current_cond
    let s := { s with current_cond := some cond_text }
    let s := dfg_visit_list s consequence
    let s :=
      if alternative.isSome then
        let neg := ("not (") ++ cond_text ++ (")")
        let s := s.add_node neg (get_vars cond_text)
        let s := { s with current_cond := some neg }
        dfg_visit_list s (alternative.getD [])
      else s
    { s with current_cond := prev }
  | .while_statement cond_text _ body _ _ =>
    let s := s.add_node cond_text (get_vars cond_text)
    let prev := s.current_cond
    let s := { s with current_cond := some cond_text }
    let s := dfg_visit_list s body
    { s with current_cond := prev }
  | .for_statement cond body _ _ =>
    let cond_text :=
      match cond with
      | some c => c.1
      | none => ("for")
    let s := s.add_node cond_text (get_vars cond_text)
    let prev := s.current_cond
    let s := { s with current_cond := some cond_text }
    let s := dfg_visit_list s body
    { s with current_cond := prev }
  | .enhanced_for_statement body _ _ =>
    let cond_text := ("for")
    let s := s.add_node cond_text (get_vars cond_text)
    let prev := s.current_cond
    let s := { s with current_cond := some cond_text }
    let s := dfg_visit_list s body
    { s with current_cond := prev }
  | .switch_statement groups _ _ => dfg_visit_list s groups
  | .switch_group _ stmts _ => dfg_visit_list s stmts
termination_by sizeOf n
decreasing_by
  all_goals simp_wf
  all_goals first
    | omega
    | (refine Nat.lt_of_le_of_lt (sizeOf_getD_le _) ?_; omega)

/-- Visit a list of statements in order. -/
def dfg_visit_list (s : DState) (ns : List JNode) : DState :=
  match ns with
  | [] => s
  | n :: rest => dfg_visit_list (dfg_visit s n) rest
termination_by sizeOf ns
decreasing_by all_goals simp_wf <;> omega

end

/-- `DFGBuilder.build` of the expression-level DFG builder: reset the node
list and the condition context, add one node per parameter, then visit the
method body. -/
def dfg_build (s : DState) (body : List JNode) (params : List String) : DState :=
  let s := { s with nodes := [], current_cond := none }
  let s := params.foldl (fun s p => s.add_node p []) s
  dfg_visit_list s body

/-! ### Basic lemmas about the graph primitives -/

@[simp] theorem updf_same {α : Type} (f : Nat → α) (k : Nat) (v : α) :
    updf f k v k = v := by simp [updf]

theorem updf_other {α : Type} (f : Nat → α) (k : Nat) (v : α) {i : Nat}
    (h : i ≠ k) : updf f k v i = f i := by simp [updf, h]

@[simp] theorem add_exit_stmts (g : Graph) (b nb : Nat) (c : Option String) :
    (g.add_exit b nb c).stmts = g.stmts := rfl

@[simp] theorem add_exit_current_id (g : Graph) (b nb : Nat) (c : Option String) :
    (g.add_exit b nb c).current_id = g.current_id := rfl

@[simp] theorem add_exit_next_lid (g : Graph) (b nb : Nat) (c : Option String) :
    (g.add_exit b nb c).next_lid = g.next_lid + 1 := rfl

theorem add_exit_exits (g : Graph) (b nb : Nat) (c : Option String) (x : Nat) :
    (g.add_exit b nb c).exits x =
      if x = b then g.exits b ++ [⟨g.next_lid, b, nb, c⟩] else g.exits x := by
  simp [Graph.add_exit, updf]

theorem add_exit_preds (g : Graph) (b nb : Nat) (c : Option String) (x : Nat) :
    (g.add_exit b nb c).preds x =
      if x = nb then g.preds nb ++ [⟨g.next_lid, b, nb, c⟩] else g.preds x := by
  simp [Graph.add_exit, updf]

@[simp] theorem add_statement_exits (g : Graph) (b : Nat) (n : JNode) :
    (g.add_statement b n).exits = g.exits := rfl

@[simp] theorem add_statement_preds (g : Graph) (b : Nat) (n : JNode) :
    (g.add_statement b n).preds = g.preds := rfl

@[simp] theorem add_statement_current_id (g : Graph) (b : Nat) (n : JNode) :
    (g.add_statement b n).current_id = g.current_id := rfl

@[simp] theorem add_statement_next_lid (g : Graph) (b : Nat) (n : JNode) :
    (g.add_statement b n).next_lid = g.next_lid := rfl

theorem add_statement_stmts (g : Graph) (b : Nat) (n : JNode) (x : Nat) :
    (g.add_statement b n).stmts x =
      if x = b then g.stmts b ++ [n] else g.stmts x := by
  simp [Graph.add_statement, updf]

/-! ### Claim C6: break / continue scoping -/

/-- C6.  Visiting a break statement links the current block to the top of
the after-switch stack if non-empty, otherwise to the top of the
after-loop stack if non-empty, and otherwise is a no-op; a continue
statement with an empty loop-guard stack is likewise a no-op. -/
theorem break_continue_scoping (s : BState) :
    (∀ t r, s.after_switch_block_stack = t :: r →
      visit_break_statement s = { s with g := s.g.add_exit s.current_block t none })
    ∧ (∀ t r, s.after_switch_block_stack = [] → s.after_loop_block_stack = t :: r →
      visit_break_statement s = { s with g := s.g.add_exit s.current_block t none })
    ∧ (s.after_switch_block_stack = [] → s.after_loop_block_stack = [] →
      visit_break_statement s = s)
    ∧ (s.curr_loop_guard_stack = [] → visit_continue_statement s = s) := by
  refine ⟨?_, ?_, ?_, ?_⟩
  · intro t r h
    simp [visit_break_statement, h]
  · intro t r hs hl
    simp [visit_break_statement, hs, hl]
  · intro hs hl
    simp [visit_break_statement, hs, hl]
  · intro h
    simp [visit_continue_statement, h]

/-- Witness for `break_continue_scoping` at a concrete builder state. -/
theorem break_continue_scoping_witness :
    let s : BState :=
      { g := Graph.init, entryblock := some 1, finalblocks := [], current_block := 2
        after_loop_block_stack := [5], after_switch_block_stack := []
        curr_loop_guard_stack := [] }
    visit_break_statement s = { s with g := s.g.add_exit s.current_block 5 none }
    ∧ visit_continue_statement s = s := by
  intro s
  exact ⟨(break_continue_scoping s).2.1 5 [] rfl rfl, (break_continue_scoping s).2.2.2 rfl⟩

/-! ### Claim C7: the fallback sequential builder -/

/-- Specification of the loop of `_build_simple` after the first block has
been created: block ids continue sequentially, each new block holds one
statement, consecutive blocks are linked unconditionally, and at the end
the last block is registered as a final block. -/
theorem build_simple_aux_spec (items : List (Nat × String)) :
    ∀ (s : BState) (p : Nat), s.g.current_id = p →
    (∀ b, p < b → s.g.exits b = [] ∧ s.g.stmts b = []) →
    (build_simple_aux s (some p) items).g.current_id = p + items.length
    ∧ (build_simple_aux s (some p) items).entryblock = s.entryblock
    ∧ (build_simple_aux s (some p) items).finalblocks
        = s.finalblocks ++ [p + items.length]
    ∧ (∀ j (h : j < items.length),
        (build_simple_aux s (some p) items).g.stmts (p + j + 1)
          = [JNode.plain ("statement") (items.get ⟨j, h⟩).2 (items.get ⟨j, h⟩).1])
    ∧ (∀ b, b ≤ p → (build_simple_aux s (some p) items).g.stmts b = s.g.stmts b)
    ∧ (∀ j, j + 1 < items.length → ∃ L : Link,
        (build_simple_aux s (some p) items).g.exits (p + j + 1) = [L]
          ∧ L.src = p + j + 1 ∧ L.tgt = p + j + 2 ∧ L.exitcase = none)
    ∧ (items ≠ [] → ∃ L : Link,
        (build_simple_aux s (some p) items).g.exits p = s.g.exits p ++ [L]
          ∧ L.src = p ∧ L.tgt = p + 1 ∧ L.exitcase = none)
    ∧ (items = [] → (build_simple_aux s (some p) items).g.exits p = s.g.exits p)
    ∧ (items ≠ [] → (build_simple_aux s (some p) items).g.exits (p + items.length) = [])
    ∧ (∀ b, b < p → (build_simple_aux s (some p) items).g.exits b = s.g.exits b) := by
  induction items with
  | nil =>
    intro s p hid hfresh
    simp [build_simple_aux, hid]
  | cons it rest ih =>
    intro s p hid hfresh
    obtain ⟨ln, stmt⟩ := it
    have hstep : build_simple_aux s (some p) ((ln, stmt) :: rest)
        = build_simple_aux
            { s with g := ((s.g.new_block.1.add_statement (s.g.current_id + 1)
                (JNode.plain ("statement") stmt ln)).add_exit p (s.g.current_id + 1) none) }
            (some (s.g.current_id + 1)) rest := by
      simp [build_simple_aux, Graph.new_block]
    set s2 : BState :=
      { s with g := ((s.g.new_block.1.add_statement (s.g.current_id + 1)
          (JNode.plain ("statement") stmt ln)).add_exit p (s.g.current_id + 1) none) } with hs2
    have hid2 : s2.g.current_id = p + 1 := by
      simp [hs2, Graph.new_block, hid]
    have hfresh2 : ∀ b, p + 1 < b → s2.g.exits b = [] ∧ s2.g.stmts b = [] := by
      intro b hb
      have h1 := hfresh b (by omega)
      constructor
      · rw [hs2]
        simp only [add_exit_exits, hid]
        rw [if_neg (by omega)]
        simpa [Graph.new_block] using h1.1
      · rw [hs2]
        simp only [add_exit_stmts]
        rw [add_statement_stmts, hid, if_neg (by omega)]
        simpa [Graph.new_block] using h1.2
    obtain ⟨c1, c2, c3, c4, c5, c6, c7, c8, c9, c10⟩ := ih s2 (p + 1) hid2 hfresh2
    rw [hstep, hid]
    have hstmts_p1 : s2.g.stmts (p + 1) = [JNode.plain ("statement") stmt ln] := by
      rw [hs2]
      simp only [add_exit_stmts]
      rw [add_statement_stmts, hid]
      simp [Graph.new_block, (hfresh (p+1) (by omega)).2]
    have hexits_p1 : s2.g.exits (p + 1) = (if (p+1) = p then s.g.exits p ++ [⟨s.g.next_lid, p, p+1, none⟩] else []) := by
      rw [hs2]
      simp only [add_exit_exits, hid]
      rcases eq_or_ne (p+1) p with h | h
      · omega
      · rw [if_neg h, if_neg h]
        simpa [Graph.new_block] using (hfresh (p+1) (by omega)).1
    rw [if_neg (by omega)] at hexits_p1
    have hexits_p : s2.g.exits p = s.g.exits p ++ [⟨s.g.next_lid, p, p + 1, none⟩] := by
      rw [hs2]
      simp only [add_exit_exits, hid]
      simp [Graph.new_block]
    have hexits_lo : ∀ b, b < p → s2.g.exits b = s.g.exits b := by
      intro b hb
      rw [hs2]
      simp only [add_exit_exits, hid]
      rw [if_neg (by omega)]
      simp [Graph.new_block]
    have hstmts_le : ∀ b, b ≤ p → s2.g.stmts b = s.g.stmts b := by
      intro b hb
      rw [hs2]
      simp only [add_exit_stmts]
      rw [add_statement_stmts, hid, if_neg (by omega)]
      simp [Graph.new_block]
    refine ⟨?_, ?_, ?_, ?_, ?_, ?_, ?_, ?_, ?_, ?_⟩
    · rw [c1]; simp; omega
    · rw [c2]
    · rw [c3]; simp; omega
    · intro j h
      match j with
      | 0 =>
        have := c5 (p + 1) (by omega)
        rw [this, hstmts_p1]
        simp [List.get]
      | j + 1 =>
        have h2 : j < rest.length := by simpa using h
        have := c4 j h2
        have harith : p + 1 + j + 1 = p + (j + 1) + 1 := by omega
        rw [harith] at this
        rw [this]
        simp [List.get]
    · intro b hb
      rw [c5 b (by omega), hstmts_le b hb]
    · intro j h
      match j with
      | 0 =>
        have hr : rest ≠ [] := by
          intro hc; rw [hc] at h; simp at h
        obtain ⟨L, hL1, hL2, hL3, hL4⟩ := c7 hr
        refine ⟨L, ?_, ?_, ?_, hL4⟩
        · rw [hL1, hexits_p1]; simp
        · omega
        · omega
      | j + 1 =>
        have h2 : j + 1 < rest.length := by simpa using h
        obtain ⟨L, hL1, hL2, hL3, hL4⟩ := c6 j h2
        have harith : p + 1 + j + 1 = p + (j + 1) + 1 := by omega
        rw [harith] at hL1
        exact ⟨L, hL1, by omega, by omega, hL4⟩
    · intro _
      refine ⟨⟨s.g.next_lid, p, p + 1, none⟩, ?_, rfl, rfl, rfl⟩
      rw [c10 p (by omega), hexits_p]
    · intro hc
      exact absurd hc (by simp)
    · intro _
      rcases List.eq_nil_or_concat rest with hr | _
      · subst hr
        have := c8 rfl
        simp only [List.length_cons, List.length_nil] at *
        have harith : p + (0 + 1) = p + 1 := by omega
        rw [harith, this, hexits_p1]
      · rcases List.eq_nil_or_concat rest with hr2 | hr2
        · next h => rw [hr2] at h; simp at h
        · have hr : rest ≠ [] := by
            obtain ⟨a, b, hab⟩ := hr2
            rw [hab]; simp
          have := c9 hr
          have harith : p + 1 + rest.length = p + (rest.length + 1) := by omega
          rw [harith] at this
          simpa using this
    · intro b hb
      rw [c10 b (by omega), hexits_lo b hb]


/-- C7.  In fallback build mode, `_build_simple` produces one
single-statement block per non-blank source line (block ids `1..k`),
linked unconditionally in source order, with the first line's block as
the entry block and the final-blocks list containing exactly the last
block. -/
theorem build_simple_fallback_spec (body_lines : List String) :
    (build_simple body_lines).g.current_id = (simple_lines body_lines).length
    ∧ (∀ j (h : j < (simple_lines body_lines).length),
        (build_simple body_lines).g.stmts (j + 1)
          = [JNode.plain ("statement") ((simple_lines body_lines).get ⟨j, h⟩).2
              ((simple_lines body_lines).get ⟨j, h⟩).1])
    ∧ (∀ j, j + 1 < (simple_lines body_lines).length → ∃ L : Link,
        (build_simple body_lines).g.exits (j + 1) = [L]
          ∧ L.src = j + 1 ∧ L.tgt = j + 2 ∧ L.exitcase = none)
    ∧ (simple_lines body_lines ≠ [] → (build_simple body_lines).entryblock = some 1)
    ∧ (build_simple body_lines).finalblocks
        = (if (simple_lines body_lines).length = 0 then []
           else [(simple_lines body_lines).length])
    ∧ (simple_lines body_lines ≠ []
        → (build_simple body_lines).g.exits (simple_lines body_lines).length = []) := by
  rcases hl : simple_lines body_lines with _ | ⟨⟨ln, stmt⟩, rest⟩
  · unfold build_simple
    rw [hl]
    simp [build_simple_aux, simple_init, Graph.init]
  · have hunfold : build_simple body_lines
        = build_simple_aux
            { simple_init with
              g := (simple_init.g.new_block.1.add_statement 1
                (JNode.plain ("statement") stmt ln))
              entryblock := some 1 }
            (some 1) rest := by
      unfold build_simple
      rw [hl]
      simp [build_simple_aux, simple_init, Graph.init, Graph.new_block]
    set s1 : BState :=
      { simple_init with
        g := (simple_init.g.new_block.1.add_statement 1
          (JNode.plain ("statement") stmt ln))
        entryblock := some 1 } with hs1
    have hid1 : s1.g.current_id = 1 := by
      simp [hs1, simple_init, Graph.init, Graph.new_block]
    have hfresh1 : ∀ b, 1 < b → s1.g.exits b = [] ∧ s1.g.stmts b = [] := by
      intro b hb
      constructor
      · simp [hs1, simple_init, Graph.init, Graph.new_block]
      · rw [hs1]
        simp only []
        rw [add_statement_stmts]
        rw [if_neg (by omega)]
        simp [simple_init, Graph.init, Graph.new_block]
    obtain ⟨c1, c2, c3, c4, c5, c6, c7, c8, c9, c10⟩ :=
      build_simple_aux_spec rest s1 1 hid1 hfresh1
    have hstmts1 : s1.g.stmts 1 = [JNode.plain ("statement") stmt ln] := by
      rw [hs1]
      simp only []
      rw [add_statement_stmts]
      simp [simple_init, Graph.init, Graph.new_block]
    have hexits1 : s1.g.exits 1 = [] := by
      simp [hs1, simple_init, Graph.init, Graph.new_block]
    rw [hunfold]
    refine ⟨?_, ?_, ?_, ?_, ?_, ?_⟩
    · rw [c1]; simp; omega
    · intro j h
      match j with
      | 0 =>
        rw [c5 1 (by omega), hstmts1]
        simp [List.get]
      | j + 1 =>
        have h2 : j < rest.length := by simpa using h
        have := c4 j h2
        have harith : 1 + j + 1 = j + 1 + 1 := by omega
        rw [harith] at this
        rw [this]
        simp [List.get]
    · intro j h
      match j with
      | 0 =>
        have hr : rest ≠ [] := by
          intro hc; rw [hc] at h; simp at h
        obtain ⟨L, hL1, hL2, hL3, hL4⟩ := c7 hr
        rw [hexits1] at hL1
        exact ⟨L, by simpa using hL1, hL2, by omega, hL4⟩
      | j + 1 =>
        have h2 : j + 1 < rest.length := by simpa using h
        obtain ⟨L, hL1, hL2, hL3, hL4⟩ := c6 j h2
        have harith : 1 + j + 1 = j + 1 + 1 := by omega
        rw [harith] at hL1
        exact ⟨L, hL1, by omega, by omega, hL4⟩
    · intro _
      rw [c2]
    · rw [c3]
      simp [hs1, simple_init]
      omega
    · intro _
      simp only [List.length_cons]
      rcases List.eq_nil_or_concat rest with hr | hr
      · subst hr
        simp only [List.length_nil]
        rw [show (0 : Nat) + 1 = 1 from rfl]
        rw [c8 rfl, hexits1]
      · have hne : rest ≠ [] := by
          obtain ⟨a, b, hab⟩ := hr; rw [hab]; simp
        have := c9 hne
        have harith : 1 + rest.length = rest.length + 1 := by omega
        rw [harith] at this
        exact this

/-- Witness for `build_simple_fallback_spec`: a 3-line body yields exactly
3 sequentially linked blocks with the last as the sole final block. -/
theorem build_simple_fallback_witness :
    let s := build_simple [("int x = a;"), ("x = x + 1;"), ("return x;")]
    s.g.current_id = 3 ∧ s.entryblock = some 1 ∧ s.finalblocks = [3]
    ∧ (∃ L : Link, s.g.exits 1 = [L] ∧ L.src = 1 ∧ L.tgt = 2 ∧ L.exitcase = none)
    ∧ (∃ L : Link, s.g.exits 2 = [L] ∧ L.src = 2 ∧ L.tgt = 3 ∧ L.exitcase = none)
    ∧ s.g.exits 3 = [] := by
  intro s
  have h := build_simple_fallback_spec [("int x = a;"), ("x = x + 1;"), ("return x;")]
  have hlen : (simple_lines [("int x = a;"), ("x = x + 1;"), ("return x;")]).length = 3 := by
    decide
  have hne : simple_lines [("int x = a;"), ("x = x + 1;"), ("return x;")] ≠ [] := by
    decide
  refine ⟨by rw [h.1, hlen], h.2.2.2.1 hne, ?_, ?_, ?_, ?_⟩
  · rw [h.2.2.2.2.1, hlen]
    simp
  · exact h.2.2.1 0 (by rw [hlen]; omega)
  · exact h.2.2.1 1 (by rw [hlen]; omega)
  · have := h.2.2.2.2.2 hne
    rwa [hlen] at this

/-! ### Claim C10: build resets the DFG builder state -/

/-- C10.  `DFGBuilder.build` first resets the accumulated node list and
the condition context, so the returned DFG depends only on the arguments:
a second build on a used instance yields the same nodes as a build on a
fresh instance. -/
theorem dfg_build_state_independent (s1 s2 : DState) (body : List JNode)
    (params : List String) :
    dfg_build s1 body params = dfg_build s2 body params := rfl

/-! ### Claim C9: the variable extractor -/

theorem var_visit_no_keyword (text : String) (lineno : Nat) (o : Occ)
    (ho : o ∈ var_visit text lineno) : var_keywords.contains o.1 = false := by
  unfold var_visit at ho
  simp only [List.mem_filterMap] at ho
  obtain ⟨tok, _, hcase⟩ := ho
  split_ifs at hcase with h1 h2
  all_goals cases hcase
  show var_keywords.contains (String.mk tok) = false
  by_contra hc
  rw [Bool.not_eq_false] at hc
  rw [hc] at h1
  simp at h1

/-- C9.  The extractor never returns a reserved keyword (first conjunct,
which holds), but identifiers occurring only inside the contents of a
string literal are returned whenever the literal's full contents are not
equal to the identifier itself: on the statement `return "hello world";`
the extractor returns `hello` and `world`, both of which occur only
inside a string literal. -/
theorem extractor_keywords_and_literal_leak :
    (∀ (stmt : JNode) (o : Occ), o ∈ stmt_occurrences stmt →
      var_keywords.contains o.1 = false)
    ∧ stmt_occurrences
        (JNode.plain ("expression_statement") ("return \"hello world\";") 0)
        = [(("hello"), 1), (("world"), 1)] := by
  constructor
  · intro stmt o ho
    match stmt with
    | .if_statement c cl _ _ _ _ => exact var_visit_no_keyword c (cl + 1) o ho
    | .while_statement c cl _ _ _ => exact var_visit_no_keyword c (cl + 1) o ho
    | .for_statement cond _ _ _ =>
      match cond with
      | some c =>
        simp only [stmt_occurrences] at ho
        exact var_visit_no_keyword c.1 (c.2 + 1) o ho
      | none => simp [stmt_occurrences] at ho
    | .plain typ text line =>
      simp only [stmt_occurrences] at ho
      split_ifs at ho
      · exact var_visit_no_keyword _ _ o (List.mem_of_mem_filter ho)
      · exact var_visit_no_keyword _ _ o ho
    | .enhanced_for_statement _ _ _ => exact var_visit_no_keyword _ _ o ho
    | .switch_statement _ _ _ => exact var_visit_no_keyword _ _ o ho
    | .switch_group _ _ _ => exact var_visit_no_keyword _ _ o ho
  · decide

/-- Witness for the universally quantified half of
`extractor_keywords_and_literal_leak`. -/
theorem extractor_keywords_witness :
    var_keywords.contains
      (((("a"), 1) : Occ)).1 = false :=
  extractor_keywords_and_literal_leak.1
    (JNode.plain ("expression_statement") ("a = b;") 0) (("a"), 1) (by decide)

/-! ### Claim C4: separated-mode path assembly -/

/-- The builder input used in the counterexample: `a = b; return a;`. -/
def mix_body : List JNode :=
  [JNode.plain ("expression_statement") ("a = b;") 0,
   JNode.plain ("return_statement") ("return a;") 1]

/-- Counterexample to C4 as stated: on the CFG built from
`a = b; return a;` the unseeded separated-mode walk produces the single
path `[(a,1), (b,1), (a,2)]`, which mentions the two distinct variable
names `a` and `b` — because `_dfs` tests occurrence names against the
head of the *incoming* path, all occurrences of the first contributing
block are appended regardless of their name. -/
theorem separated_mode_mixing_cex :
    build_paths 3 (build false 20 mix_body).g (build false 20 mix_body).finalblocks
        1 none []
      = [[(("a"), 1), (("b"), 1), (("a"), 2)]]
    ∧ ¬ (∀ p ∈ build_paths 3 (build false 20 mix_body).g
            (build false 20 mix_body).finalblocks 1 none [],
          ∀ o1 ∈ p, ∀ o2 ∈ p, o1.1 = o2.1) := by
  exact ⟨by decide, by decide⟩

/-- C4 (amended).  Every path produced by `_dfs` extends the seed path it
was started from, and every occurrence appended beyond a non-empty seed
carries the seed's first variable name; consequently a walk seeded with
occurrences of a single variable yields paths mentioning exactly that
variable.  (Only in the unseeded walk may the first contributing block
inject occurrences of several variables.) -/
theorem dfs_separated_extension :
    (∀ (fuel : Nat) (g : Graph) (fins : List Nat) (names : Option (List String))
       (b : Nat) (path : List Occ) (vis : List Nat),
      ∀ r ∈ dfg_dfs fuel g fins names b path vis,
        ∃ suffix, r = path ++ suffix
          ∧ (∀ p0 rest, path = p0 :: rest → ∀ o ∈ suffix, o.1 = p0.1))
    ∧ (∀ (fuel : Nat) (g : Graph) (fins : List Nat) (names : Option (List String))
        (b : Nat) (seed : List Occ) (vis : List Nat) (v : String),
      seed ≠ [] → (∀ o ∈ seed, o.1 = v) →
      ∀ r ∈ dfg_dfs fuel g fins names b seed vis, ∀ o ∈ r, o.1 = v) := by
  have main : ∀ (fuel : Nat) (g : Graph) (fins : List Nat)
      (names : Option (List String)) (b : Nat) (path : List Occ) (vis : List Nat),
      ∀ r ∈ dfg_dfs fuel g fins names b path vis,
        ∃ suffix, r = path ++ suffix
          ∧ (∀ p0 rest, path = p0 :: rest → ∀ o ∈ suffix, o.1 = p0.1) := by
    intro fuel
    induction fuel with
    | zero => intro g fins names b path vis r hr; simp [dfg_dfs] at hr
    | succ fuel ih =>
      intro g fins names b path vis r hr
      rw [dfg_dfs] at hr
      by_cases hb : b ∈ vis
      · simp [hb] at hr
      · rw [if_neg hb] at hr
        rcases hpath : path with _ | ⟨p0, prest⟩
        · -- empty incoming path: the whole block batch is appended
          simp only [hpath] at hr
          by_cases hf : b ∈ fins
          · rw [if_pos hf] at hr
            split_ifs at hr with hne
            · simp at hr
            · simp at hr
              exact ⟨r, by simp [hr], by intro p0 rest h; cases h⟩
          · rw [if_neg hf] at hr
            simp only [List.mem_flatMap] at hr
            obtain ⟨e, _, hre⟩ := hr
            obtain ⟨suf, hsuf, _⟩ := ih g fins names e.tgt _ _ r hre
            exact ⟨r, by simp, by intro p0 rest h; cases h⟩
        · -- non-empty incoming path
          simp only [hpath] at hr
          set batch := (block_occurrences names g b).filter (fun o => o.1 == p0.1)
            with hbatch
          by_cases hf : b ∈ fins
          · rw [if_pos hf] at hr
            split_ifs at hr with hne
            · simp at hr
            · simp at hr
              refine ⟨batch, by simp [hr], ?_⟩
              intro q0 rest h o ho
              cases h
              have := List.of_mem_filter (by rw [← hbatch]; exact ho)
              simpa using this
          · rw [if_neg hf] at hr
            simp only [List.mem_flatMap] at hr
            obtain ⟨e, _, hre⟩ := hr
            obtain ⟨suf, hsuf, hmatch⟩ := ih g fins names e.tgt _ _ r hre
            refine ⟨batch ++ suf, by simpa using hsuf, ?_⟩
            intro q0 rest h o ho
            cases h
            rcases List.mem_append.mp ho with h1 | h1
            · have := List.of_mem_filter (by rw [← hbatch]; exact h1)
              simpa using this
            · exact hmatch p0 (prest ++ batch) (by simp) o h1
  refine ⟨main, ?_⟩
  intro fuel g fins names b seed vis v hne hall r hr o ho
  obtain ⟨suffix, hsuf, hmatch⟩ := main fuel g fins names b seed vis r hr
  rcases hseed : seed with _ | ⟨p0, rest⟩
  · exact absurd hseed hne
  · subst hsuf
    rcases List.mem_append.mp ho with h1 | h1
    · exact hall o h1
    · have h2 := hmatch p0 rest hseed o (by simpa [hseed] using h1)
      have h3 : p0.1 = v := hall p0 (by simp [hseed])
      rw [h2, h3]

/-- Witness for `dfs_separated_extension` at a concrete seeded walk. -/
theorem dfs_separated_extension_witness :
    ∀ r ∈ dfg_dfs 3 (build false 20 mix_body).g (build false 20 mix_body).finalblocks
        none 1 [(("x"), 1)] [],
      ∀ o ∈ r, o.1 = ("x") :=
  dfs_separated_extension.2 3 (build false 20 mix_body).g
    (build false 20 mix_body).finalblocks none 1 [(("x"), 1)] [] ("x")
    (by decide) (by decide)

/-! ### Claim C5: deduplication and grouping of final paths -/

theorem unique_paths_aux_mem (l : List (List Occ)) :
    ∀ (acc : List (List Occ)) (p : List Occ),
      p ∈ l.foldl (fun u q => if !q.isEmpty && !u.contains q then u ++ [q] else u) acc
        ↔ p ∈ acc ∨ (p ∈ l ∧ p ≠ []) := by
  induction l with
  | nil => intro acc p; simp
  | cons q rest ih =>
    intro acc p
    simp only [List.foldl_cons]
    rw [ih]
    have hmc : p ∈ q :: rest ↔ (p = q ∨ p ∈ rest) := List.mem_cons
    by_cases hq : q = []
    · subst hq
      rw [if_neg (by simp)]
      constructor
      · rintro (h | h)
        · exact Or.inl h
        · exact Or.inr ⟨by simp [h.1], h.2⟩
      · rintro (h | ⟨h1, h2⟩)
        · exact Or.inl h
        · rcases hmc.mp h1 with h3 | h3
          · exact absurd h3 h2
          · exact Or.inr ⟨h3, h2⟩
    · by_cases hc : q ∈ acc
      · rw [if_neg (by simp [List.elem_eq_true_of_mem hc]; exact fun _ => hc)]
        constructor
        · rintro (h | h)
          · exact Or.inl h
          · exact Or.inr ⟨hmc.mpr (Or.inr h.1), h.2⟩
        · rintro (h | ⟨h1, h2⟩)
          · exact Or.inl h
          · rcases hmc.mp h1 with h3 | h3
            · subst h3; exact Or.inl hc
            · exact Or.inr ⟨h3, h2⟩
      · have hcc : acc.contains q = false := by
          cases hx : acc.contains q
          · rfl
          · exact absurd (List.mem_of_elem_eq_true hx) hc
        rw [if_pos (by simp [hcc, hq]; exact hc)]
        constructor
        · rintro (h | h)
          · rcases List.mem_append.mp h with h1 | h1
            · exact Or.inl h1
            · simp only [List.mem_singleton] at h1
              exact Or.inr ⟨hmc.mpr (Or.inl h1), by rw [h1]; exact hq⟩
          · exact Or.inr ⟨hmc.mpr (Or.inr h.1), h.2⟩
        · rintro (h | ⟨h1, h2⟩)
          · exact Or.inl (List.mem_append.mpr (Or.inl h))
          · rcases hmc.mp h1 with h3 | h3
            · exact Or.inl (List.mem_append.mpr (Or.inr (by simp [h3])))
            · exact Or.inr ⟨h3, h2⟩

theorem unique_paths_aux_nodup (l : List (List Occ)) :
    ∀ (acc : List (List Occ)), acc.Nodup →
      (l.foldl (fun u q => if !q.isEmpty && !u.contains q then u ++ [q] else u)
        acc).Nodup := by
  induction l with
  | nil => intro acc h; simpa using h
  | cons q rest ih =>
    intro acc hacc
    simp only [List.foldl_cons]
    apply ih
    split_ifs with h
    · simp only [Bool.and_eq_true, Bool.not_eq_true'] at h
      have hq : q ∉ acc := by
        intro hc
        have : acc.contains q = true := by simpa using hc
        rw [this] at h
        simp at h
      simp [List.nodup_append, hacc, hq]
    · exact hacc

theorem mem_unique_paths (l : List (List Occ)) (p : List Occ) :
    p ∈ unique_paths l ↔ p ∈ l ∧ p ≠ [] := by
  unfold unique_paths
  rw [unique_paths_aux_mem]
  simp

theorem unique_paths_nodup (l : List (List Occ)) : (unique_paths l).Nodup :=
  unique_paths_aux_nodup l [] (by simp)

theorem any_map_fst_eq (f : String × List (List Occ) → String × List (List Occ))
    (hf : ∀ q, (f q).1 = q.1) (acc : List (String × List (List Occ))) (v : String) :
    (acc.map f).any (fun pr => pr.1 == v) = acc.any (fun pr => pr.1 == v) := by
  induction acc with
  | nil => rfl
  | cons q t ih => simp [hf q, ih]

theorem group_by_var_aux (paths : List (List Occ)) :
    ∀ (A : List (List Occ)) (acc : List (String × List (List Occ))),
      (∀ pr ∈ acc, pr.2 = A.filter (fun p => head_var p == some pr.1)) →
      (acc.map Prod.fst).Nodup →
      (∀ v : String, acc.any (fun pr => pr.1 == v) = true
        ↔ ∃ p ∈ A, head_var p = some v) →
      ∀ pr ∈ paths.foldl
          (fun acc path =>
            match head_var path with
            | none => acc
            | some v => assoc_append acc v path)
          acc,
        pr.2 = (A ++ paths).filter (fun p => head_var p == some pr.1) := by
  induction paths with
  | nil =>
    intro A acc h1 _ _ pr hpr
    simpa using h1 pr hpr
  | cons path rest ih =>
    intro A acc h1 h2 h3 pr hpr
    simp only [List.foldl_cons] at hpr
    rcases hhv : head_var path with _ | w
    · simp only [hhv] at hpr
      have := ih (A ++ [path]) acc
        (by
          intro pr2 hpr2
          rw [h1 pr2 hpr2]
          simp [hhv])
        h2
        (by
          intro v
          rw [h3 v]
          constructor
          · rintro ⟨p, hp, hp2⟩; exact ⟨p, by simp [hp], hp2⟩
          · rintro ⟨p, hp, hp2⟩
            rcases List.mem_append.mp hp with h | h
            · exact ⟨p, h, hp2⟩
            · simp at h; subst h; rw [hhv] at hp2; cases hp2)
        pr hpr
      rw [this]
      simp
    · simp only [hhv] at hpr
      by_cases hkey : acc.any (fun pr2 => pr2.1 == w) = true
      · -- the key already exists: append the path to its entry
        have hstep : assoc_append acc w path
            = acc.map (fun q => if q.1 == w then (q.1, q.2 ++ [path]) else q) := by
          unfold assoc_append
          rw [if_pos hkey]
        rw [hstep] at hpr
        rw [show A ++ path :: rest = (A ++ [path]) ++ rest by simp]
        refine ih (A ++ [path]) _ ?_ ?_ ?_ pr hpr
        · intro pr2 hpr2
          simp only [List.mem_map] at hpr2
          obtain ⟨q, hq, hq2⟩ := hpr2
          by_cases hq0 : q.1 == w
          · rw [if_pos hq0] at hq2
            subst hq2
            simp only []
            rw [h1 q hq, List.filter_append]
            have heq : q.1 = w := by simpa using hq0
            simp [hhv, heq]
          · rw [if_neg hq0] at hq2
            subst hq2
            rw [h1 q hq, List.filter_append]
            have hne : ¬ (w = q.1) := by
              intro hc
              exact absurd (by simpa using hc.symm) hq0
            simp [hhv, hne]
        · have hmapeq : (acc.map
              (fun q => if q.1 == w then (q.1, q.2 ++ [path]) else q)).map
              Prod.fst = acc.map Prod.fst := by
            rw [List.map_map]
            apply List.map_congr_left
            intro q _
            by_cases hq0 : (q.1 == w) = true
            · have hqe : q.1 = w := by simpa using hq0
              simp [hq0, hqe]
            · have hqe : ¬ (q.1 = w) := by simpa using hq0
              simp [hq0, hqe]
          rw [hmapeq]
          exact h2
        · intro v
          have hany := any_map_fst_eq
            (fun q => if q.1 == w then (q.1, q.2 ++ [path]) else q)
            (by
              intro q
              show (if (q.1 == w) = true then (q.1, q.2 ++ [path]) else q).1 = q.1
              split <;> rfl) acc v
          rw [hany, h3 v]
          constructor
          · rintro ⟨p, hp, hp2⟩; exact ⟨p, by simp [hp], hp2⟩
          · rintro ⟨p, hp, hp2⟩
            rcases List.mem_append.mp hp with h | h
            · exact ⟨p, h, hp2⟩
            · simp at h
              subst h
              rw [hhv] at hp2
              rw [Option.some_inj] at hp2
              rw [h3 w] at hkey
              obtain ⟨p2, hp2a, hp2b⟩ := hkey
              exact ⟨p2, hp2a, by rw [hp2b, hp2]⟩
      · -- new key: append a fresh singleton group
        have hstep : assoc_append acc w path = acc ++ [(w, [path])] := by
          unfold assoc_append
          rw [if_neg hkey]
        rw [hstep] at hpr
        rw [show A ++ path :: rest = (A ++ [path]) ++ rest by simp]
        have hnotinA : ¬ ∃ p ∈ A, head_var p = some w := by
          rw [← h3 w]
          exact hkey
        have hkeysnot : w ∉ acc.map Prod.fst := by
          intro hc
          apply hkey
          simp only [List.any_eq_true]
          obtain ⟨q, hq, hq1⟩ := List.mem_map.mp hc
          exact ⟨q, hq, by simp [hq1]⟩
        refine ih (A ++ [path]) _ ?_ ?_ ?_ pr hpr
        · intro pr2 hpr2
          rcases List.mem_append.mp hpr2 with h | h
          · rw [h1 pr2 h, List.filter_append]
            have hne : ¬ (w = pr2.1) := by
              intro hc
              apply hkeysnot
              rw [hc]
              exact List.mem_map.mpr ⟨pr2, h, rfl⟩
            simp [hhv, hne]
          · simp only [List.mem_singleton] at h
            subst h
            simp only []
            rw [List.filter_append]
            have hAnil : A.filter (fun p => head_var p == some w) = [] := by
              apply List.filter_eq_nil_iff.mpr
              intro p hp hc
              exact hnotinA ⟨p, hp, by simpa using hc⟩
            simp [hAnil, hhv]
        · simp only [List.map_append]
          rw [List.nodup_append]
          refine ⟨h2, by simp, ?_⟩
          intro a ha hb
          simp only [List.map_cons, List.map_nil, List.mem_singleton] at hb
          subst hb
          exact hkeysnot ha
        · intro v
          simp only [List.any_append]
          constructor
          · intro h
            simp only [Bool.or_eq_true] at h
            rcases h with h | h
            · obtain ⟨p, hp, hp2⟩ := (h3 v).mp h
              exact ⟨p, by simp [hp], hp2⟩
            · simp at h
              subst h
              exact ⟨path, by simp, hhv⟩
          · rintro ⟨p, hp, hp2⟩
            simp only [Bool.or_eq_true]
            rcases List.mem_append.mp hp with h | h
            · exact Or.inl ((h3 v).mpr ⟨p, h, hp2⟩)
            · simp at h
              subst h
              rw [hhv] at hp2
              rw [Option.some_inj] at hp2
              exact Or.inr (by simp [hp2])

/-- The per-variable grouping of the final paths: each group is exactly
the sublist of paths led by that variable, in first-seen order. -/
theorem group_by_var_spec (paths : List (List Occ)) (v : String)
    (ps : List (List Occ)) (h : (v, ps) ∈ group_by_var paths) :
    ps = paths.filter (fun p => head_var p == some v) := by
  have := group_by_var_aux paths [] [] (by simp) (by simp) (by simp) (v, ps) h
  simpa using this

/-- C5.  Final data-flow paths are deduplicated by exact structural
equality of their occurrence sequences — a path produced by several
enumerated routes is stored exactly once (`Nodup` plus the membership
characterisation) — and the presentation grouping collects, per variable
name, exactly that variable's paths in first-seen order. -/
theorem build_paths_dedup_grouping (fuel : Nat) (g : Graph) (fins : List Nat)
    (entry : Nat) (names : Option (List String)) (starts : List Occ) :
    (build_paths fuel g fins entry names starts).Nodup
    ∧ (∀ p, p ∈ build_paths fuel g fins entry names starts
        ↔ (p ∈ (group_starts starts).flatMap
              (fun gr => dfg_dfs fuel g fins names entry gr.2 [])
              ++ dfg_dfs fuel g fins names entry [] []
            ∧ p ≠ []))
    ∧ (∀ v ps, (v, ps) ∈ group_by_var (build_paths fuel g fins entry names starts) →
        ps = (build_paths fuel g fins entry names starts).filter
          (fun p => head_var p == some v)) := by
  refine ⟨unique_paths_nodup _, ?_, ?_⟩
  · intro p
    exact mem_unique_paths _ p
  · intro v ps h
    exact group_by_var_spec _ v ps h

/-- Witness for `build_paths_dedup_grouping`'s quantified parts at a
concrete CFG on which two routes produce the same path. -/
theorem build_paths_dedup_witness :
    let body := [JNode.if_statement ("c") 0
        [JNode.plain ("expression_statement") ("x = 1;") 0]
        (some [JNode.plain ("expression_statement") ("x = 2;") 1]) ("ifelse") 0,
      JNode.plain ("return_statement") ("return x;") 2]
    build_paths 6 (build false 20 body).g (build false 20 body).finalblocks 1 none []
      = [[(("c"), 1)]]
    ∧ (build_paths 6 (build false 20 body).g (build false 20 body).finalblocks
        1 none []).Nodup := by
  intro body
  refine ⟨by decide, (build_paths_dedup_grouping 6 (build false 20 body).g
    (build false 20 body).finalblocks 1 none []).1⟩

/-! ### Claim C3: termination and per-path uniqueness of path enumeration -/

theorem flatMap_congr_mem {α β : Type} {l : List α} {f g : α → List β}
    (h : ∀ a ∈ l, f a = g a) : l.flatMap f = l.flatMap g := by
  induction l with
  | nil => rfl
  | cons a t ih =>
    simp only [List.flatMap_cons]
    rw [h a (by simp), ih (fun x hx => h x (by simp [hx]))]

theorem nodup_snoc {b : Nat} {cur : List Nat} (hnd : cur.Nodup)
    (hb : b ∉ cur) : (cur ++ [b]).Nodup := by
  rw [List.nodup_append]
  refine ⟨hnd, List.nodup_singleton b, ?_⟩
  intro x hx hxb
  simp only [List.mem_singleton] at hxb
  subst hxb
  exact hb hx

theorem enum_dfs_nodup (fuel : Nat) (g : Graph) (fins : List Nat) :
    ∀ (b : Nat) (cur : List Nat), cur.Nodup → b ∉ cur →
      ∀ p ∈ enum_dfs fuel g fins b cur, p.Nodup := by
  induction fuel with
  | zero => intro b cur _ _ p hp; simp [enum_dfs] at hp
  | succ fuel ih =>
    intro b cur hnd hb p hp
    rw [enum_dfs] at hp
    have hnd' : (cur ++ [b]).Nodup := nodup_snoc hnd hb
    split_ifs at hp with hfin
    · simp at hp
      subst hp
      exact hnd'
    · simp only [List.mem_flatMap] at hp
      obtain ⟨e, he, hpe⟩ := hp
      split_ifs at hpe with htgt
      · simp at hpe
      · exact ih e.tgt (cur ++ [b]) hnd' htgt p hpe

theorem enum_dfs_fuel_stable (N : Nat) (g : Graph)
    (hg : ∀ x : Nat, ∀ L ∈ g.exits x, L.tgt ≤ N) (fins : List Nat) :
    ∀ (f1 f2 b : Nat) (cur : List Nat),
      cur.Nodup → (∀ x ∈ cur, x ≤ N) → b ≤ N → b ∉ cur →
      N + 1 - cur.length ≤ f1 → N + 1 - cur.length ≤ f2 →
      enum_dfs f1 g fins b cur = enum_dfs f2 g fins b cur := by
  have full : ∀ (b : Nat) (cur : List Nat), cur.Nodup → (∀ x ∈ cur, x ≤ N) →
      b ≤ N → b ∉ cur → N + 1 - cur.length = 0 → False := by
    intro b cur hnd hle hb hbc hlen
    have hsub : cur.toFinset ⊆ Finset.range (N + 1) := by
      intro x hx
      simp only [List.mem_toFinset] at hx
      simp only [Finset.mem_range]
      exact Nat.lt_succ_of_le (hle x hx)
    have hcard : cur.toFinset.card = cur.length := List.toFinset_card_of_nodup hnd
    have hge : N + 1 ≤ cur.length := by omega
    have heq : cur.toFinset = Finset.range (N + 1) := by
      apply Finset.eq_of_subset_of_card_le hsub
      rw [hcard]
      simpa using hge
    have : b ∈ cur.toFinset := by
      rw [heq]
      simp only [Finset.mem_range]
      exact Nat.lt_succ_of_le hb
    exact hbc (by simpa using this)
  intro f1
  induction f1 with
  | zero =>
    intro f2 b cur hnd hle hb hbc h1 _
    exact (full b cur hnd hle hb hbc (by omega)).elim
  | succ f1 ih =>
    intro f2 b cur hnd hle hb hbc h1 h2
    match f2 with
    | 0 => exact (full b cur hnd hle hb hbc (by omega)).elim
    | f2 + 1 =>
      rw [enum_dfs, enum_dfs]
      split_ifs with hfin
      · rfl
      · apply flatMap_congr_mem
        intro e he
        split_ifs with htgt
        · rfl
        · have hnd' : (cur ++ [b]).Nodup := nodup_snoc hnd hbc
          have hle' : ∀ x ∈ cur ++ [b], x ≤ N := by
            intro x hx
            rcases List.mem_append.mp hx with h | h
            · exact hle x h
            · simp at h; subst h; exact hb
          exact ih f2 e.tgt (cur ++ [b]) hnd' hle' (hg b e he) htgt
            (by simp; omega) (by simp; omega)

/-- The builder input of a branching example: an if/else followed by a
return, whose CFG is a diamond. -/
def diamond_body : List JNode :=
  [JNode.if_statement ("c") 0
      [JNode.plain ("expression_statement") ("x = 1;") 0]
      (some [JNode.plain ("expression_statement") ("x = 2;") 1]) ("ifelse") 0,
   JNode.plain ("return_statement") ("return x;") 2]

/-- C3.  Path enumeration terminates on every finite CFG: (a) with link
targets bounded by `N`, the enumeration is independent of the recursion
fuel once the fuel covers the at most `N + 1` distinct blocks a path can
hold, so the depth-first walk needs only bounded depth even on cyclic
graphs; (b) a block already on the current path is never revisited, so
every emitted path contains each block at most once (and hence traverses
a loop body at most once per path); (c) the same block may still appear
in several distinct enumerated paths, as on the diamond CFG built from
`if (c) ... else ...; return x;`, whose return block 3 ends both paths. -/
theorem path_enumeration_spec :
    (∀ (N : Nat) (g : Graph), (∀ x : Nat, ∀ L ∈ g.exits x, L.tgt ≤ N) →
      ∀ (fins : List Nat) (f1 f2 entry : Nat), entry ≤ N →
        N + 1 ≤ f1 → N + 1 ≤ f2 →
        enumerate_paths f1 g fins entry = enumerate_paths f2 g fins entry)
    ∧ (∀ (fuel : Nat) (g : Graph) (fins : List Nat) (entry : Nat),
        ∀ p ∈ enumerate_paths fuel g fins entry, p.Nodup)
    ∧ (enumerate_paths 6 (build false 20 diamond_body).g
          (build false 20 diamond_body).finalblocks 1
        = [[1, 2, 3], [1, 4, 3]]
      ∧ [1, 2, 3] ≠ [1, 4, 3]
      ∧ 3 ∈ [1, 2, 3] ∧ 3 ∈ ([1, 4, 3] : List Nat)) := by
  refine ⟨?_, ?_, by decide, by decide, by decide, by decide⟩
  · intro N g hg fins f1 f2 entry hentry hf1 hf2
    exact enum_dfs_fuel_stable N g hg fins f1 f2 entry [] (by simp) (by simp)
      hentry (by simp) (by simpa using hf1) (by simpa using hf2)
  · intro fuel g fins entry p hp
    exact enum_dfs_nodup fuel g fins entry [] (by simp) (by simp) p hp

/-- The link structure of a concrete cyclic graph: block 1 flows to
block 2, block 2 loops back to block 1 and also exits to block 3. -/
def cyc_exits : Nat → List Link
  | 1 => [⟨0, 1, 2, none⟩]
  | 2 => [⟨1, 2, 1, none⟩, ⟨2, 2, 3, none⟩]
  | _ => []

/-- A concrete cyclic graph over blocks 1, 2, 3 using `cyc_exits`. -/
def cyc_graph : Graph :=
  { stmts := fun _ => [], exits := cyc_exits, preds := fun _ => [],
    current_id := 3, next_lid := 3 }

theorem cyc_exits_bounded : ∀ x : Nat, ∀ L ∈ cyc_graph.exits x, L.tgt ≤ 3 := by
  intro x L hL
  match x with
  | 0 => simp [cyc_graph, cyc_exits] at hL
  | 1 =>
    simp only [cyc_graph, cyc_exits, List.mem_singleton] at hL
    subst hL
    decide
  | 2 =>
    simp only [cyc_graph, cyc_exits, List.mem_cons, List.not_mem_nil,
      or_false] at hL
    rcases hL with h | h <;> (subst h; decide)
  | x + 3 => simp [cyc_graph, cyc_exits] at hL

/-- Witness for `path_enumeration_spec` on the concrete cyclic graph
`cyc_graph`: fuel beyond the block count does not change the enumeration,
and every enumerated path is duplicate-free. -/
theorem path_enumeration_witness :
    enumerate_paths 5 cyc_graph [3] 1 = enumerate_paths 9 cyc_graph [3] 1
    ∧ ∀ p ∈ enumerate_paths 5 cyc_graph [3] 1, p.Nodup := by
  constructor
  · exact path_enumeration_spec.1 3 cyc_graph cyc_exits_bounded [3] 5 9 1
      (by decide) (by decide) (by decide)
  · intro p hp
    exact path_enumeration_spec.2.1 5 cyc_graph [3] 1 p hp

/-! ### Claim C8: idempotence of the graph normalizer -/

theorem splice_step_stmts (g : Graph) (p e : Link) :
    (splice_step g p e).stmts = g.stmts := by
  simp only [splice_step]
  split_ifs <;> rfl

theorem splice_exits_stmts (p : Link) :
    ∀ (es : List Link) (g : Graph), (splice_exits g p es).stmts = g.stmts := by
  intro es
  induction es with
  | nil => intro g; rfl
  | cons e es ih =>
    intro g
    simp only [splice_exits]
    rw [ih, splice_step_stmts]

theorem process_pred_stmts (g : Graph) (b : Nat) (p : Link) :
    (process_pred g b p).stmts = g.stmts := by
  simp only [process_pred]
  split_ifs <;> simp [splice_exits_stmts]

theorem splice_empty_stmts (b : Nat) :
    ∀ (ps : List Link) (g : Graph), (splice_empty g b ps).stmts = g.stmts := by
  intro ps
  induction ps with
  | nil => intro g; rfl
  | cons p ps ih =>
    intro g
    simp only [splice_empty]
    rw [ih, process_pred_stmts]

theorem clean_fold_stmts (fuel : Nat)
    (h : ∀ (g : Graph) (b : Nat) (v : List Nat),
      (clean_cfg fuel g b v).1.stmts = g.stmts) :
    ∀ (ts : List Link) (r : Graph × List Nat),
      (ts.foldl (fun r e => clean_cfg fuel r.1 e.tgt r.2) r).1.stmts
        = r.1.stmts := by
  intro ts
  induction ts with
  | nil => intro r; rfl
  | cons e ts ih =>
    intro r
    simp only [List.foldl_cons]
    rw [ih]
    exact h r.1 e.tgt r.2

theorem clean_cfg_stmts :
    ∀ (fuel : Nat) (g : Graph) (b : Nat) (visited : List Nat),
      (clean_cfg fuel g b visited).1.stmts = g.stmts := by
  intro fuel
  induction fuel with
  | zero => intro g b visited; rfl
  | succ fuel ih =>
    intro g b visited
    simp only [clean_cfg]
    split_ifs with hv he
    · rfl
    · rw [clean_fold_stmts fuel ih, splice_empty_stmts]
    · rw [clean_fold_stmts fuel ih]

theorem clean_fold_fix (fuel : Nat) (g : Graph)
    (h : ∀ (b : Nat) (v : List Nat), (clean_cfg fuel g b v).1 = g) :
    ∀ (ts : List Link) (r : Graph × List Nat), r.1 = g →
      (ts.foldl (fun r e => clean_cfg fuel r.1 e.tgt r.2) r).1 = g := by
  intro ts
  induction ts with
  | nil => intro r hr; exact hr
  | cons e ts ih =>
    intro r hr
    simp only [List.foldl_cons]
    apply ih
    rw [hr]
    exact h e.tgt r.2

theorem clean_cfg_fix (g : Graph) (hg : Cleaned g) :
    ∀ (fuel b : Nat) (visited : List Nat), (clean_cfg fuel g b visited).1 = g := by
  intro fuel
  induction fuel with
  | zero => intro b visited; rfl
  | succ fuel ih =>
    intro b visited
    simp only [clean_cfg]
    by_cases hv : b ∈ visited
    · simp only [if_pos hv]
    · simp only [if_neg hv]
      cases he : g.is_empty b with
      | false =>
        simp only [Bool.false_eq_true, if_false]
        exact clean_fold_fix fuel g ih _ _ rfl
      | true =>
        obtain ⟨hp, hx⟩ := hg b he
        simp only [if_true, hp, hx, splice_empty, List.foldl_nil]
        have h1 : updf g.preds b [] = g.preds := by
          funext i
          show (if i = b then [] else g.preds i) = g.preds i
          split_ifs with h
          · rw [h, hp]
          · rfl
        have h2 : updf g.exits b [] = g.exits := by
          funext i
          show (if i = b then [] else g.exits i) = g.exits i
          split_ifs with h
          · rw [h, hx]
          · rfl
        rw [h1, h2]

/-- C8.  The graph normalizer is idempotent: on a graph already in
normalized shape (every empty block fully detached, which is the shape
`clean_cfg` produces for each block it visits), `clean_cfg` performs no
rewrite at all — the resulting graph is equal to the input, for any
starting block, any visited list and any recursion fuel.  In addition, on
the actual CFG built from the diamond body and already normalized by
`build`, a second normalizer run leaves every block's exits and
predecessors unchanged; statement lists are never touched by any
normalizer run at all. -/
theorem normalizer_idempotent :
    (∀ (g : Graph), Cleaned g → ∀ (fuel b : Nat) (visited : List Nat),
        (clean_cfg fuel g b visited).1 = g)
    ∧ (∀ (fuel : Nat) (g : Graph) (b : Nat) (visited : List Nat),
        (clean_cfg fuel g b visited).1.stmts = g.stmts)
    ∧ (∀ b ∈ List.range 12,
        (clean_cfg ((build false 20 diamond_body).g.current_id + 1)
            (build false 20 diamond_body).g 1 []).1.exits b
          = (build false 20 diamond_body).g.exits b
        ∧ (clean_cfg ((build false 20 diamond_body).g.current_id + 1)
            (build false 20 diamond_body).g 1 []).1.preds b
          = (build false 20 diamond_body).g.preds b) := by
  refine ⟨fun g hg => clean_cfg_fix g hg, clean_cfg_stmts, ?_⟩
  decide

theorem normalizer_idempotent_witness :
    Cleaned cl_graph ∧ (clean_cfg 4 cl_graph 1 []).1 = cl_graph := by
  have hcl : Cleaned cl_graph := by
    intro b hb
    match b with
    | 1 => exact absurd hb (by decide)
    | 2 => exact absurd hb (by decide)
    | 3 => exact absurd hb (by decide)
    | 0 => exact ⟨rfl, rfl⟩
    | (n + 4) => exact ⟨by simp [cl_graph, cl_preds], by simp [cl_graph, cl_exits]⟩
  exact ⟨hcl, normalizer_idempotent.1 cl_graph hcl 4 1 []⟩

/-! ### Claim C1: labels on the links spliced in by the normalizer -/

theorem splice_step_exits (g : Graph) (p e : Link) (x : Nat) :
    (splice_step g p e).exits x = (g.add_exit p.src e.tgt e.exitcase).exits x := by
  simp only [splice_step]
  split_ifs <;> rfl

theorem splice_step_next_lid (g : Graph) (p e : Link) :
    (splice_step g p e).next_lid = g.next_lid + 1 := by
  simp only [splice_step]
  split_ifs <;> rfl

theorem splice_step_mem {L : Link} {g : Graph} {x : Nat} (p e : Link)
    (hL : L ∈ g.exits x) : L ∈ (splice_step g p e).exits x := by
  rw [splice_step_exits, add_exit_exits]
  split_ifs with h
  · subst h
    exact List.mem_append_left _ hL
  · exact hL

theorem splice_step_adds (g : Graph) (p e : Link) :
    (⟨g.next_lid, p.src, e.tgt, e.exitcase⟩ : Link)
      ∈ (splice_step g p e).exits p.src := by
  rw [splice_step_exits, add_exit_exits, if_pos rfl]
  exact List.mem_append_right _ (List.mem_singleton_self _)

theorem splice_step_exits_at {x : Nat} (g : Graph) (p e : Link)
    (h : x ≠ p.src) : (splice_step g p e).exits x = g.exits x := by
  rw [splice_step_exits, add_exit_exits, if_neg h]

theorem splice_exits_next_lid_le (p : Link) :
    ∀ (es : List Link) (g : Graph), g.next_lid ≤ (splice_exits g p es).next_lid := by
  intro es
  induction es with
  | nil => intro g; exact Nat.le_refl _
  | cons e es ih =>
    intro g
    calc g.next_lid ≤ (splice_step g p e).next_lid := by
          rw [splice_step_next_lid]; omega
      _ ≤ _ := ih _

theorem splice_exits_mem {L : Link} {x : Nat} (p : Link) :
    ∀ (es : List Link) (g : Graph), L ∈ g.exits x →
      L ∈ (splice_exits g p es).exits x := by
  intro es
  induction es with
  | nil => intro g h; exact h
  | cons e es ih =>
    intro g h
    exact ih _ (splice_step_mem p e h)

theorem splice_exits_exits_at {x : Nat} (p : Link) (h : x ≠ p.src) :
    ∀ (es : List Link) (g : Graph), (splice_exits g p es).exits x = g.exits x := by
  intro es
  induction es with
  | nil => intro g; rfl
  | cons e es ih =>
    intro g
    rw [show splice_exits g p (e :: es) = splice_exits (splice_step g p e) p es
        from rfl]
    rw [ih, splice_step_exits_at g p e h]

theorem splice_exits_adds (p : Link) {e : Link} :
    ∀ (es : List Link) (g : Graph), e ∈ es →
      ∃ L ∈ (splice_exits g p es).exits p.src,
        L.src = p.src ∧ L.tgt = e.tgt ∧ L.exitcase = e.exitcase
        ∧ g.next_lid ≤ L.lid := by
  intro es
  induction es with
  | nil => intro g h; cases h
  | cons e0 es ih =>
    intro g h
    rcases List.mem_cons.mp h with h | h
    · subst h
      refine ⟨⟨g.next_lid, p.src, e.tgt, e.exitcase⟩,
        splice_exits_mem p es _ (splice_step_adds g p e), rfl, rfl, rfl,
        Nat.le_refl _⟩
    · obtain ⟨L, hmem, h1, h2, h3, h4⟩ := ih (splice_step g p e0) h
      refine ⟨L, hmem, h1, h2, h3, ?_⟩
      calc g.next_lid ≤ (splice_step g p e0).next_lid := by
            rw [splice_step_next_lid]; omega
        _ ≤ L.lid := h4

theorem mem_removeLid_of_ne {L : Link} {lid : Nat} :
    ∀ l : List Link, L ∈ l → L.lid ≠ lid → L ∈ removeLid l lid := by
  intro l
  induction l with
  | nil => intro h; cases h
  | cons M l ih =>
    intro h hne
    rcases List.mem_cons.mp h with h | h
    · subst h
      rw [removeLid, if_neg hne]
      exact List.mem_cons_self _ _
    · rw [removeLid]
      split_ifs with hM
      · exact h
      · exact List.mem_cons_of_mem _ (ih h hne)

theorem process_pred_next_lid_le (g : Graph) (b : Nat) (p : Link) :
    g.next_lid ≤ (process_pred g b p).next_lid := by
  simp only [process_pred]
  split_ifs
  · exact splice_exits_next_lid_le p _ g
  · exact splice_exits_next_lid_le p _ g

theorem process_pred_mem_post {L : Link} {x : Nat} (g : Graph) (b : Nat)
    (p : Link) (hne : L.lid ≠ p.lid)
    (hmem : L ∈ (splice_exits g p (g.exits b)).exits x) :
    L ∈ (process_pred g b p).exits x := by
  simp only [process_pred]
  split_ifs
  · simp only [updf]
    split_ifs with hx
    · exact mem_removeLid_of_ne _ (by rw [← hx]; exact hmem) hne
    · exact hmem
  · exact hmem

theorem process_pred_mem_hi {L : Link} {x : Nat} (g : Graph) (b : Nat)
    (p : Link) (t : Nat) (hp : p.lid < t) (hL : t ≤ L.lid)
    (hmem : L ∈ g.exits x) : L ∈ (process_pred g b p).exits x :=
  process_pred_mem_post g b p (by omega) (splice_exits_mem p _ g hmem)

theorem process_pred_exits_b (g : Graph) (b : Nat) (p : Link)
    (h : p.src ≠ b) : (process_pred g b p).exits b = g.exits b := by
  simp only [process_pred]
  split_ifs
  · show updf _ p.src _ b = _
    rw [updf_other _ _ _ (Ne.symm h)]
    exact splice_exits_exits_at p (Ne.symm h) _ g
  · exact splice_exits_exits_at p (Ne.symm h) _ g

theorem splice_empty_next_lid_le (b : Nat) :
    ∀ (ps : List Link) (g : Graph), g.next_lid ≤ (splice_empty g b ps).next_lid := by
  intro ps
  induction ps with
  | nil => intro g; exact Nat.le_refl _
  | cons p ps ih =>
    intro g
    exact Nat.le_trans (process_pred_next_lid_le g b p) (ih _)

theorem splice_empty_mem_hi {L : Link} {x : Nat} (b t : Nat) (hL : t ≤ L.lid) :
    ∀ (ps : List Link) (g : Graph), (∀ q ∈ ps, q.lid < t) →
      L ∈ g.exits x → L ∈ (splice_empty g b ps).exits x := by
  intro ps
  induction ps with
  | nil => intro g _ h; exact h
  | cons p ps ih =>
    intro g hq h
    exact ih _ (fun q hmem => hq q (List.mem_cons_of_mem _ hmem))
      (process_pred_mem_hi g b p t (hq p (List.mem_cons_self _ _)) hL h)

theorem splice_empty_adds (b : Nat) (t : Nat) :
    ∀ (ps : List Link) (g : Graph), t ≤ g.next_lid →
      (∀ q ∈ ps, q.lid < t) → (∀ q ∈ ps, q.src ≠ b) →
      ∀ p ∈ ps, ∀ e ∈ g.exits b,
        ∃ L ∈ (splice_empty g b ps).exits p.src,
          L.src = p.src ∧ L.tgt = e.tgt ∧ L.exitcase = e.exitcase := by
  intro ps
  induction ps with
  | nil => intro g _ _ _ p hp; cases hp
  | cons p0 ps ih =>
    intro g ht hlid hsrc p hp e he
    rcases List.mem_cons.mp hp with hp | hp
    · subst hp
      obtain ⟨L, hmem, h1, h2, h3, h4⟩ := splice_exits_adds p (g.exits b) g he
      have hmem2 : L ∈ (process_pred g b p).exits p.src :=
        process_pred_mem_post g b p
          (by have := hlid p (List.mem_cons_self _ _); omega) hmem
      exact ⟨L, splice_empty_mem_hi b t (by omega) ps _
        (fun q hq => hlid q (List.mem_cons_of_mem _ hq)) hmem2, h1, h2, h3⟩
    · have hb : (process_pred g b p0).exits b = g.exits b :=
        process_pred_exits_b g b p0 (hsrc p0 (List.mem_cons_self _ _))
      exact ih (process_pred g b p0)
        (Nat.le_trans ht (process_pred_next_lid_le g b p0))
        (fun q hq => hlid q (List.mem_cons_of_mem _ hq))
        (fun q hq => hsrc q (List.mem_cons_of_mem _ hq))
        p hp e (hb ▸ he)

/-- C1 (counterexample).  Labels of links into removed empty blocks are
not preserved.  On `cex1_body` (`if (c) break;`), before normalization
the entry block's two outgoing links carry the labels `c` and `!(c)`;
after normalization the entry block has no outgoing links at all — both
labels vanish because the empty branch blocks have no exits to splice
against.  On `cex2_body` (empty then- and else-branches), the spliced
replacement links exist but carry the label of each removed block's
outgoing exit (`none`), not the label of its incoming link (`c`,
`!(c)`).  Finally, the entry block of the empty body stays empty and
reachable after normalization. -/
theorem clean_cfg_label_cex :
    ((build_raw false 20 cex1_body).g.exits 1).map Link.exitcase
        = [some ("c"), some ("!(c)")]
    ∧ (build false 20 cex1_body).g.exits 1 = []
    ∧ ((build_raw false 20 cex2_body).g.exits 1).map Link.exitcase
        = [some ("c"), some ("!(c)")]
    ∧ ((build false 20 cex2_body).g.exits 1).map Link.exitcase = [none, none]
    ∧ (build false 20 ([] : List JNode)).g.is_empty 1 = true := by
  decide

/-- C1 (amended).  The predecessor loop `clean_cfg` runs on an empty
block `b` — embedded as `splice_empty g b (g.preds b)` — creates, for
every predecessor link `p` and every exit link `e` of `b`, a replacement
link from `p`'s source to `e`'s target carrying the label of the
**outgoing** exit link `e` (the incoming link's label is dropped), given
that `b`'s predecessor links carry identities below the arena's fresh-link
counter and none of them starts at `b` itself.  On the concrete
`cex2_body` build both surviving entry links indeed carry the then/else
blocks' outgoing label `none`. -/
theorem clean_cfg_splice_label_direction :
    (∀ (g : Graph) (b : Nat),
        (∀ q ∈ g.preds b, q.lid < g.next_lid) →
        (∀ q ∈ g.preds b, q.src ≠ b) →
        ∀ p ∈ g.preds b, ∀ e ∈ g.exits b,
          ∃ L ∈ (splice_empty g b (g.preds b)).exits p.src,
            L.src = p.src ∧ L.tgt = e.tgt ∧ L.exitcase = e.exitcase)
    ∧ ((build false 20 cex2_body).g.exits 1).map Link.exitcase = [none, none] := by
  constructor
  · intro g b hlid hsrc p hp e he
    exact splice_empty_adds b g.next_lid (g.preds b) g (Nat.le_refl _)
      hlid hsrc p hp e he
  · decide

/-- Witness for `clean_cfg_splice_label_direction` on the hand-built
graph `sp_graph`: splicing out the empty block 2 creates a link from
block 1 to block 3 carrying the outgoing label `none`. -/
theorem clean_cfg_splice_label_witness :
    (∀ q ∈ sp_graph.preds 2, q.lid < sp_graph.next_lid)
    ∧ (∀ q ∈ sp_graph.preds 2, q.src ≠ 2)
    ∧ ∃ L ∈ (splice_empty sp_graph 2 (sp_graph.preds 2)).exits 1,
        L.src = 1 ∧ L.tgt = 3 ∧ L.exitcase = none :=
  ⟨by decide, by decide,
    clean_cfg_splice_label_direction.1 sp_graph 2 (by decide) (by decide)
      ⟨0, 1, 2, some ("c")⟩ (by decide) ⟨1, 2, 3, none⟩ (by decide)⟩

/-! ### Claim C2: lemmas about removal, splicing and the link invariant -/

theorem containsLid_of_mem {L : Link} {l : List Link} (h : L ∈ l) :
    containsLid l L.lid = true := by
  simp only [containsLid, List.any_eq_true]
  exact ⟨L, h, by simp⟩

theorem removeLid_sublist (lid : Nat) :
    ∀ l : List Link, List.Sublist (removeLid l lid) l := by
  intro l
  induction l with
  | nil => exact List.Sublist.refl _
  | cons L l ih =>
    rw [removeLid]
    split_ifs
    · exact List.sublist_cons_self _ _
    · exact List.Sublist.cons₂ _ ih

theorem mem_of_mem_removeLid {L : Link} {lid : Nat} {l : List Link}
    (h : L ∈ removeLid l lid) : L ∈ l :=
  (removeLid_sublist lid l).mem h

theorem not_mem_removeLid {M : Link} {lid : Nat} (hM : M.lid = lid) :
    ∀ l : List Link, ((l.map Link.lid).Nodup) → M ∉ removeLid l lid := by
  intro l
  induction l with
  | nil => intro _ h; cases h
  | cons L l ih =>
    intro hnd h
    rw [removeLid] at h
    rw [List.map_cons, List.nodup_cons] at hnd
    split_ifs at h with hL
    · refine absurd ?_ hnd.1
      have hmm : M.lid ∈ List.map Link.lid l := List.mem_map_of_mem _ h
      rwa [hM, ← hL] at hmm
    · rcases List.mem_cons.mp h with h | h
      · exact hL (by rw [← h, hM])
      · exact ih hnd.2 h

theorem nodup_lid_append {l : List Link} {L : Link} {n : Nat}
    (hnd : (l.map Link.lid).Nodup) (hlt : ∀ M ∈ l, M.lid < n)
    (hL : L.lid = n) : ((l ++ [L]).map Link.lid).Nodup := by
  rw [List.map_append, List.nodup_append]
  refine ⟨hnd, by simp, ?_⟩
  intro a ha hb
  simp only [List.map_cons, List.map_nil, List.mem_singleton] at hb
  obtain ⟨M, hM, hMa⟩ := List.mem_map.mp ha
  have := hlt M hM
  omega

theorem splice_step_current_id (g : Graph) (p e : Link) :
    (splice_step g p e).current_id = g.current_id := by
  simp only [splice_step]
  split_ifs <;> rfl

theorem splice_step_preds (g : Graph) (p e : Link) (y : Nat) :
    (splice_step g p e).preds y =
      if y = e.tgt then
        (if containsLid (g.preds e.tgt ++ [⟨g.next_lid, p.src, e.tgt, e.exitcase⟩])
            e.lid = true
         then removeLid
            (g.preds e.tgt ++ [⟨g.next_lid, p.src, e.tgt, e.exitcase⟩]) e.lid
         else g.preds e.tgt ++ [⟨g.next_lid, p.src, e.tgt, e.exitcase⟩])
      else g.preds y := by
  have hpe : (g.add_exit p.src e.tgt e.exitcase).preds e.tgt
      = g.preds e.tgt ++ [⟨g.next_lid, p.src, e.tgt, e.exitcase⟩] := by
    rw [add_exit_preds, if_pos rfl]
  by_cases hy : y = e.tgt
  · subst hy
    rw [if_pos rfl]
    simp only [splice_step, hpe]
    split_ifs with hc
    · show updf _ e.tgt _ e.tgt = _
      exact updf_same _ _ _
    · exact hpe
  · rw [if_neg hy]
    simp only [splice_step, hpe]
    split_ifs with hc
    · show updf _ e.tgt _ y = _
      rw [updf_other _ _ _ hy, add_exit_preds, if_neg hy]
    · rw [add_exit_preds, if_neg hy]

theorem splice_step_exits_char (g : Graph) (p e : Link) (x : Nat) :
    (splice_step g p e).exits x =
      if x = p.src then g.exits p.src ++ [⟨g.next_lid, p.src, e.tgt, e.exitcase⟩]
      else g.exits x := by
  rw [splice_step_exits, add_exit_exits]

theorem is_empty_congr {g g2 : Graph} (h : g2.stmts = g.stmts) (x : Nat) :
    g2.is_empty x = g.is_empty x := by
  simp [Graph.is_empty, h]

theorem splice_step_is_empty (g : Graph) (p e : Link) (x : Nat) :
    (splice_step g p e).is_empty x = g.is_empty x :=
  is_empty_congr (splice_step_stmts g p e) x

theorem splice_mem_ex_elim {M : Link} {x : Nat} {g : Graph} {p e : Link}
    (h : M ∈ (splice_step g p e).exits x) :
    M ∈ g.exits x
    ∨ (M = ⟨g.next_lid, p.src, e.tgt, e.exitcase⟩ ∧ x = p.src) := by
  rw [splice_step_exits_char] at h
  split_ifs at h with hx
  · rcases List.mem_append.mp h with h | h
    · left; rw [hx]; exact h
    · right; exact ⟨List.mem_singleton.mp h, hx⟩
  · left; exact h

theorem splice_mem_pr_elim {M : Link} {y : Nat} {g : Graph} {p e : Link}
    (h : M ∈ (splice_step g p e).preds y) :
    M ∈ g.preds y
    ∨ (M = ⟨g.next_lid, p.src, e.tgt, e.exitcase⟩ ∧ y = e.tgt) := by
  rw [splice_step_preds] at h
  split_ifs at h with hy hc
  · have h2 := mem_of_mem_removeLid h
    rcases List.mem_append.mp h2 with h3 | h3
    · left; rw [hy]; exact h3
    · right; exact ⟨List.mem_singleton.mp h3, hy⟩
  · rcases List.mem_append.mp h with h3 | h3
    · left; rw [hy]; exact h3
    · right; exact ⟨List.mem_singleton.mp h3, hy⟩
  · left; exact h

theorem splice_mem_pr_old {M : Link} {y : Nat} {g : Graph} {p e : Link}
    (hM : M ∈ g.preds y) (hne : M.lid ≠ e.lid) :
    M ∈ (splice_step g p e).preds y := by
  rw [splice_step_preds]
  split_ifs with hy hc
  · exact mem_removeLid_of_ne _
      (List.mem_append_left _ (by rw [← hy]; exact hM)) hne
  · exact List.mem_append_left _ (by rw [← hy]; exact hM)
  · exact hM

theorem splice_mem_pr_new {g : Graph} {p e : Link}
    (hne : g.next_lid ≠ e.lid) :
    (⟨g.next_lid, p.src, e.tgt, e.exitcase⟩ : Link)
      ∈ (splice_step g p e).preds e.tgt := by
  rw [splice_step_preds, if_pos rfl]
  split_ifs with hc
  · exact mem_removeLid_of_ne _
      (List.mem_append_right _ (List.mem_singleton_self _)) hne
  · exact List.mem_append_right _ (List.mem_singleton_self _)

theorem splice_e_gone {g : Graph} {p e : Link}
    (hTgt : ∀ y M, M ∈ g.preds y → M.tgt = y)
    (hnd : ((g.preds e.tgt).map Link.lid).Nodup)
    (hlt : ∀ M ∈ g.preds e.tgt, M.lid < g.next_lid) :
    ∀ y, e ∉ (splice_step g p e).preds y := by
  intro y h
  rw [splice_step_preds] at h
  have hndapp : ((g.preds e.tgt
      ++ [(⟨g.next_lid, p.src, e.tgt, e.exitcase⟩ : Link)]).map Link.lid).Nodup :=
    nodup_lid_append hnd hlt rfl
  split_ifs at h with hy hc
  · exact not_mem_removeLid rfl _ hndapp h
  · exact hc (containsLid_of_mem h)
  · exact hy (hTgt y e h).symm

theorem sst_step (rk : Nat → Nat) (X : List Nat) (b t cid : Nat)
    (E ps0 : List Link) (emp : Nat → Bool) (g : Graph) (p0 e0 : Link)
    (S : SST rk X b t cid E ps0 emp g)
    (hSP : ∀ p ∈ ps0, p.tgt = b ∧ p.src ≠ b ∧ p.src ∉ X ∧ p.lid < t
      ∧ p.src ≤ cid ∧ (emp p.src = true → rk b < rk p.src))
    (hSE : ∀ e ∈ E, e.src = b ∧ e.tgt ≠ b ∧ e.tgt ∉ X ∧ e.lid < t
      ∧ e.tgt ≤ cid ∧ (emp e.tgt = true → rk e.tgt < rk b))
    (hp0 : p0 ∈ ps0) (he0 : e0 ∈ E) :
    SST rk X b t cid E ps0 emp (splice_step g p0 e0) := by
  obtain ⟨hp0t, hp0s, hp0X, hp0lid, hp0cid, hp0rk⟩ := hSP p0 hp0
  obtain ⟨he0s, he0t, he0X, he0lid, he0cid, he0rk⟩ := hSE e0 he0
  have hNlid : g.next_lid ≠ e0.lid := by have := S.tle; omega
  have hcid := splice_step_current_id g p0 e0
  have hnl := splice_step_next_lid g p0 e0
  refine ⟨⟨?_, ?_, ?_, ?_, ?_, ?_, ?_, ?_, ?_, ?_, ?_, ?_⟩,
    ?_, ?_, ?_, ?_, ?_, ?_, ?_, ?_, ?_, ?_, ?_, ?_⟩
  · intro x L h
    rcases splice_mem_ex_elim h with h | ⟨h1, h2⟩
    · exact S.core.srcOK x L h
    · rw [h1, h2]
  · intro x L h
    rcases splice_mem_pr_elim h with h | ⟨h1, h2⟩
    · exact S.core.tgtOK x L h
    · rw [h1, h2]
  · intro x
    rw [splice_step_exits_char]
    split_ifs with hx
    · exact nodup_lid_append (S.core.exNodup _)
        (fun M hM => S.core.exLid _ M hM) rfl
    · exact S.core.exNodup x
  · intro y
    rw [splice_step_preds]
    have hndapp : ((g.preds e0.tgt
        ++ [(⟨g.next_lid, p0.src, e0.tgt, e0.exitcase⟩ : Link)]).map Link.lid).Nodup :=
      nodup_lid_append (S.core.prNodup _)
        (fun M hM => S.core.prLid _ M hM) rfl
    split_ifs with hy hc
    · exact List.Nodup.sublist
        (List.Sublist.map Link.lid (removeLid_sublist _ _)) hndapp
    · exact hndapp
    · exact S.core.prNodup y
  · intro x y L M hL hM hlid
    rcases splice_mem_ex_elim hL with hL | ⟨hL1, hL2⟩ <;>
      rcases splice_mem_ex_elim hM with hM | ⟨hM1, hM2⟩
    · exact S.core.exInj x y L M hL hM hlid
    · have := S.core.exLid x L hL
      rw [hM1] at hlid
      have hll : L.lid = g.next_lid := hlid
      omega
    · have := S.core.exLid y M hM
      rw [hL1] at hlid
      have hll : g.next_lid = M.lid := hlid
      omega
    · rw [hL1, hM1]
  · intro x y L M hL hM hlid
    rcases splice_mem_pr_elim hL with hL | ⟨hL1, hL2⟩ <;>
      rcases splice_mem_pr_elim hM with hM | ⟨hM1, hM2⟩
    · exact S.core.prInj x y L M hL hM hlid
    · have := S.core.prLid x L hL
      rw [hM1] at hlid
      have hll : L.lid = g.next_lid := hlid
      omega
    · have := S.core.prLid y M hM
      rw [hL1] at hlid
      have hll : g.next_lid = M.lid := hlid
      omega
    · rw [hL1, hM1]
  · intro x L h
    rw [hnl]
    rcases splice_mem_ex_elim h with h | ⟨h1, _⟩
    · have := S.core.exLid x L h; omega
    · rw [h1]
      exact Nat.lt_succ_self _
  · intro x L h
    rw [hnl]
    rcases splice_mem_pr_elim h with h | ⟨h1, _⟩
    · have := S.core.prLid x L h; omega
    · rw [h1]
      exact Nat.lt_succ_self _
  · intro x L h
    rw [hcid]
    rcases splice_mem_ex_elim h with h | ⟨h1, _⟩
    · exact S.core.exB x L h
    · rw [h1]
      have := S.cidOK
      refine ⟨?_, ?_⟩
      · show p0.src ≤ g.current_id
        omega
      · show e0.tgt ≤ g.current_id
        omega
  · intro x L h
    rw [hcid]
    rcases splice_mem_pr_elim h with h | ⟨h1, _⟩
    · exact S.core.prB x L h
    · rw [h1]
      have := S.cidOK
      refine ⟨?_, ?_⟩
      · show p0.src ≤ g.current_id
        omega
      · show e0.tgt ≤ g.current_id
        omega
  · intro x hx
    rw [hcid] at hx
    rw [splice_step_exits_char]
    split_ifs with hxp
    · have := S.cidOK
      omega
    · exact S.core.hiE x hx
  · intro y hy
    rw [hcid] at hy
    rw [splice_step_preds]
    split_ifs with hyt hc
    · exfalso
      have := S.cidOK
      omega
    · exfalso
      have := S.cidOK
      omega
    · exact S.core.hiP y hy
  · intro x hX hxb L hL
    rcases splice_mem_ex_elim hL with hL | ⟨hL1, hL2⟩
    · by_cases hlid : L.lid = e0.lid
      · have hLpr := S.tsEx x hX hxb L hL
        have := S.eOwn e0 he0 L.tgt L hLpr hlid
        rw [this] at hL
        exact absurd (S.core.srcOK x e0 hL) (by rw [he0s]; exact Ne.symm hxb)
      · exact splice_mem_pr_old (S.tsEx x hX hxb L hL) hlid
    · rw [hL1]
      exact splice_mem_pr_new hNlid
  · intro x hX hxb L hL
    rcases splice_mem_pr_elim hL with hL | ⟨hL1, hL2⟩
    · exact splice_step_mem p0 e0 (S.tsPx x hX hxb L hL)
    · rw [hL1]
      exact splice_step_adds g p0 e0
  · intro x hX L hL
    rcases splice_mem_ex_elim hL with hL | ⟨hL1, _⟩
    · exact S.intoX x hX L hL
    · rw [hL1]; exact he0X
  · intro x hX L hL
    rcases splice_mem_pr_elim hL with hL | ⟨hL1, _⟩
    · exact S.fromX x hX L hL
    · rw [hL1]; exact hp0X
  · intro x L hL he1 he2
    rw [splice_step_is_empty] at he1 he2
    rcases splice_mem_ex_elim hL with hL | ⟨hL1, hL2⟩
    · exact S.rkOK x L hL he1 he2
    · subst hL2
      rw [hL1] at he2 ⊢
      have hge2 : g.is_empty e0.tgt = true := he2
      have h1 := hp0rk (by rw [← S.empOK]; exact he1)
      have h2 := he0rk (by rw [← S.empOK]; exact hge2)
      show rk e0.tgt < rk p0.src
      omega
  · rw [splice_step_exits_char, if_neg (Ne.symm hp0s)]
    exact S.exb
  · rw [splice_step_preds, if_neg (Ne.symm he0t)]
    exact S.prb
  · rw [hcid]; exact S.cidOK
  · rw [hnl]
    have := S.tle
    omega
  · intro e he y M hM hlid
    rcases splice_mem_pr_elim hM with hM | ⟨hM1, _⟩
    · exact S.eOwn e he y M hM hlid
    · obtain ⟨_, _, _, helid, _, _⟩ := hSE e he
      rw [hM1] at hlid
      have hll : g.next_lid = e.lid := hlid
      have := S.tle
      omega
  · intro p hp y M hM hlid
    rcases splice_mem_ex_elim hM with hM | ⟨hM1, _⟩
    · exact S.pOwn p hp y M hM hlid
    · obtain ⟨_, _, _, hplid, _, _⟩ := hSP p hp
      rw [hM1] at hlid
      have hll : g.next_lid = p.lid := hlid
      have := S.tle
      omega
  · intro x
    rw [splice_step_is_empty]
    exact S.empOK x

theorem sst_inner (rk : Nat → Nat) (X : List Nat) (b t cid : Nat)
    (E ps0 : List Link) (emp : Nat → Bool) (p0 : Link) (qs : List Link)
    (hSP : ∀ p ∈ ps0, p.tgt = b ∧ p.src ≠ b ∧ p.src ∉ X ∧ p.lid < t
      ∧ p.src ≤ cid ∧ (emp p.src = true → rk b < rk p.src))
    (hSE : ∀ e ∈ E, e.src = b ∧ e.tgt ≠ b ∧ e.tgt ∉ X ∧ e.lid < t
      ∧ e.tgt ≤ cid ∧ (emp e.tgt = true → rk e.tgt < rk b))
    (hp0 : p0 ∈ ps0) :
    ∀ (es : List Link) (g : Graph), (∀ e ∈ es, e ∈ E) →
      SST rk X b t cid E ps0 emp g →
      PresentAll qs g → RemInto X b qs g → FromB X b es g →
      p0 ∈ g.exits p0.src →
      SST rk X b t cid E ps0 emp (splice_exits g p0 es)
      ∧ PresentAll qs (splice_exits g p0 es)
      ∧ RemInto X b qs (splice_exits g p0 es)
      ∧ FromB X b [] (splice_exits g p0 es)
      ∧ p0 ∈ (splice_exits g p0 es).exits p0.src := by
  intro es
  induction es with
  | nil =>
    intro g _ S hpr hri hfb hpres
    exact ⟨S, hpr, hri, hfb, hpres⟩
  | cons e0 es ih =>
    intro g hes S hpr hri hfb hpres
    have he0 : e0 ∈ E := hes e0 (List.mem_cons_self _ _)
    obtain ⟨he0s, he0t, he0X, he0lid, he0cid, he0rk⟩ := hSE e0 he0
    obtain ⟨hp0t, hp0s, hp0X, hp0lid, hp0cid, hp0rk⟩ := hSP p0 hp0
    have hgone : ∀ y, e0 ∉ (splice_step g p0 e0).preds y :=
      splice_e_gone (fun y M hM => S.core.tgtOK y M hM) (S.core.prNodup _)
        (fun M hM => S.core.prLid _ M hM)
    refine ih (splice_step g p0 e0)
      (fun e he => hes e (List.mem_cons_of_mem _ he))
      (sst_step rk X b t cid E ps0 emp g p0 e0 S hSP hSE hp0 he0)
      ?_ ?_ ?_ (splice_step_mem p0 e0 hpres)
    · intro q hq
      exact splice_step_mem p0 e0 (hpr q hq)
    · intro x hX hxb L hL htgt
      rcases splice_mem_ex_elim hL with hL | ⟨hL1, hL2⟩
      · exact hri x hX hxb L hL htgt
      · exfalso
        rw [hL1] at htgt
        exact he0t htgt
    · intro x hX L hL hsrc
      rcases splice_mem_pr_elim hL with hL0 | ⟨hL1, hL2⟩
      · rcases List.mem_cons.mp (hfb x hX L hL0 hsrc) with h | h
        · exfalso
          rw [h] at hL
          exact hgone x hL
        · exact h
      · exfalso
        rw [hL1] at hsrc
        exact hp0s hsrc

theorem process_pred_preds (g : Graph) (b : Nat) (p : Link) :
    (process_pred g b p).preds = (splice_exits g p (g.exits b)).preds := by
  simp only [process_pred]
  split_ifs <;> rfl

theorem process_pred_exits_char (g : Graph) (b : Nat) (p : Link)
    (hpres : p ∈ (splice_exits g p (g.exits b)).exits p.src) :
    ∀ x, (process_pred g b p).exits x =
      if x = p.src
      then removeLid ((splice_exits g p (g.exits b)).exits p.src) p.lid
      else (splice_exits g p (g.exits b)).exits x := by
  intro x
  simp only [process_pred]
  rw [if_pos (containsLid_of_mem hpres)]
  by_cases hx : x = p.src
  · subst hx
    rw [if_pos rfl]
    exact updf_same _ _ _
  · rw [if_neg hx]
    show updf _ p.src _ x = _
    rw [updf_other _ _ _ hx]

theorem process_pred_next_lid_eq (g : Graph) (b : Nat) (p : Link) :
    (process_pred g b p).next_lid = (splice_exits g p (g.exits b)).next_lid := by
  simp only [process_pred]
  split_ifs <;> rfl

theorem process_pred_cid_eq (g : Graph) (b : Nat) (p : Link) :
    (process_pred g b p).current_id
      = (splice_exits g p (g.exits b)).current_id := by
  simp only [process_pred]
  split_ifs <;> rfl

theorem process_pred_stmts_eq (g : Graph) (b : Nat) (p : Link) :
    (process_pred g b p).stmts = (splice_exits g p (g.exits b)).stmts := by
  simp only [process_pred]
  split_ifs <;> rfl

theorem sst_pred (rk : Nat → Nat) (X : List Nat) (b t cid : Nat)
    (E ps0 : List Link) (emp : Nat → Bool) (p0 : Link) (rest : List Link)
    (hSP : ∀ p ∈ ps0, p.tgt = b ∧ p.src ≠ b ∧ p.src ∉ X ∧ p.lid < t
      ∧ p.src ≤ cid ∧ (emp p.src = true → rk b < rk p.src))
    (hSE : ∀ e ∈ E, e.src = b ∧ e.tgt ≠ b ∧ e.tgt ∉ X ∧ e.lid < t
      ∧ e.tgt ≤ cid ∧ (emp e.tgt = true → rk e.tgt < rk b))
    (hp0 : p0 ∈ ps0) (g : Graph)
    (S : SST rk X b t cid E ps0 emp g)
    (hnd : (((p0 :: rest).map Link.lid).Nodup))
    (hpr : PresentAll (p0 :: rest) g)
    (hri : RemInto X b (p0 :: rest) g)
    (hfb : FromB X b E g) :
    SST rk X b t cid E ps0 emp (process_pred g b p0)
    ∧ PresentAll rest (process_pred g b p0)
    ∧ RemInto X b rest (process_pred g b p0)
    ∧ FromB X b [] (process_pred g b p0) := by
  obtain ⟨hp0t, hp0s, hp0X, hp0lid, hp0cid, hp0rk⟩ := hSP p0 hp0
  have hpres : p0 ∈ g.exits p0.src := hpr p0 (List.mem_cons_self _ _)
  have hEeq : g.exits b = E := S.exb
  obtain ⟨S2, hpr2, hri2, hfb2, hpres2⟩ :=
    sst_inner rk X b t cid E ps0 emp p0 (p0 :: rest) hSP hSE hp0
      (g.exits b) g (by rw [hEeq]; exact fun e he => he) S hpr hri
      (by rw [hEeq]; exact hfb) hpres
  have hchar := process_pred_exits_char g b p0 hpres2
  have hprs := process_pred_preds g b p0
  have hmemex : ∀ x M, M ∈ (process_pred g b p0).exits x →
      M ∈ (splice_exits g p0 (g.exits b)).exits x := by
    intro x M hM
    rw [hchar] at hM
    split_ifs at hM with hx
    · rw [hx]
      exact mem_of_mem_removeLid hM
    · exact hM
  have hmemin : ∀ x M, M ∈ (splice_exits g p0 (g.exits b)).exits x →
      M.lid ≠ p0.lid → M ∈ (process_pred g b p0).exits x := by
    intro x M hM hne
    rw [hchar]
    split_ifs with hx
    · exact mem_removeLid_of_ne _ (by rw [← hx]; exact hM) hne
    · exact hM
  have hp0gone : ∀ x, p0 ∉ (process_pred g b p0).exits x := by
    intro x h
    have h2 := hmemex x p0 h
    have hx : x = p0.src := (S2.core.srcOK x p0 h2).symm
    rw [hchar, hx, if_pos rfl] at h
    exact not_mem_removeLid rfl _ (S2.core.exNodup p0.src) h
  refine ⟨⟨⟨?_, ?_, ?_, ?_, ?_, ?_, ?_, ?_, ?_, ?_, ?_, ?_⟩,
    ?_, ?_, ?_, ?_, ?_, ?_, ?_, ?_, ?_, ?_, ?_, ?_⟩, ?_, ?_, ?_⟩
  · intro x L h
    exact S2.core.srcOK x L (hmemex x L h)
  · intro x L h
    rw [hprs] at h
    exact S2.core.tgtOK x L h
  · intro x
    rw [hchar]
    split_ifs with hx
    · exact List.Nodup.sublist
        (List.Sublist.map Link.lid (removeLid_sublist _ _)) (S2.core.exNodup _)
    · exact S2.core.exNodup x
  · intro y
    rw [hprs]
    exact S2.core.prNodup y
  · intro x y L M hL hM hlid
    exact S2.core.exInj x y L M (hmemex x L hL) (hmemex y M hM) hlid
  · intro x y L M hL hM hlid
    rw [hprs] at hL hM
    exact S2.core.prInj x y L M hL hM hlid
  · intro x L h
    rw [process_pred_next_lid_eq]
    exact S2.core.exLid x L (hmemex x L h)
  · intro x L h
    rw [process_pred_next_lid_eq]
    rw [hprs] at h
    exact S2.core.prLid x L h
  · intro x L h
    rw [process_pred_cid_eq]
    exact S2.core.exB x L (hmemex x L h)
  · intro x L h
    rw [process_pred_cid_eq]
    rw [hprs] at h
    exact S2.core.prB x L h
  · intro x hx
    rw [process_pred_cid_eq] at hx
    rw [hchar]
    split_ifs with hxp
    · rw [← hxp, S2.core.hiE x hx]
      rfl
    · exact S2.core.hiE x hx
  · intro y hy
    rw [process_pred_cid_eq] at hy
    rw [hprs]
    exact S2.core.hiP y hy
  · intro x hX hxb L hL
    rw [hprs]
    exact S2.tsEx x hX hxb L (hmemex x L hL)
  · intro x hX hxb L hL
    rw [hprs] at hL
    have h2 := S2.tsPx x hX hxb L hL
    by_cases hlid : L.lid = p0.lid
    · exfalso
      have hLp : L = p0 := S2.pOwn p0 hp0 L.src L h2 hlid
      refine hxb ?_
      rw [← S2.core.tgtOK x L hL, hLp]
      exact hp0t
    · exact hmemin _ L h2 hlid
  · intro x hX L hL
    exact S2.intoX x hX L (hmemex x L hL)
  · intro x hX L hL
    rw [hprs] at hL
    exact S2.fromX x hX L hL
  · intro x L hL he1 he2
    have hst := is_empty_congr (process_pred_stmts_eq g b p0)
    rw [hst] at he1 he2
    exact S2.rkOK x L (hmemex x L hL) he1 he2
  · rw [hchar, if_neg (Ne.symm hp0s)]
    exact S2.exb
  · rw [hprs]
    exact S2.prb
  · rw [process_pred_cid_eq]
    exact S2.cidOK
  · rw [process_pred_next_lid_eq]
    exact S2.tle
  · intro e he y M hM hlid
    rw [hprs] at hM
    exact S2.eOwn e he y M hM hlid
  · intro p hp y M hM hlid
    exact S2.pOwn p hp y M (hmemex y M hM) hlid
  · intro x
    rw [is_empty_congr (process_pred_stmts_eq g b p0) x]
    exact S2.empOK x
  · intro q hq
    rw [List.map_cons, List.nodup_cons] at hnd
    refine hmemin _ q (hpr2 q (List.mem_cons_of_mem _ hq)) ?_
    intro hcon
    exact hnd.1 (by rw [← hcon]; exact List.mem_map_of_mem _ hq)
  · intro x hX hxb L hL htgt
    rcases List.mem_cons.mp
        (hri2 x hX hxb L (hmemex x L hL) htgt) with h | h
    · exfalso
      rw [h] at hL
      exact hp0gone x hL
    · exact h
  · intro x hX L hL hsrc
    rw [hprs] at hL
    exact hfb2 x hX L hL hsrc

theorem sst_outer (rk : Nat → Nat) (X : List Nat) (b t cid : Nat)
    (E ps0 : List Link) (emp : Nat → Bool)
    (hSP : ∀ p ∈ ps0, p.tgt = b ∧ p.src ≠ b ∧ p.src ∉ X ∧ p.lid < t
      ∧ p.src ≤ cid ∧ (emp p.src = true → rk b < rk p.src))
    (hSE : ∀ e ∈ E, e.src = b ∧ e.tgt ≠ b ∧ e.tgt ∉ X ∧ e.lid < t
      ∧ e.tgt ≤ cid ∧ (emp e.tgt = true → rk e.tgt < rk b)) :
    ∀ (ps : List Link) (g : Graph),
      (∀ p ∈ ps, p ∈ ps0) → ((ps.map Link.lid).Nodup) →
      SST rk X b t cid E ps0 emp g →
      PresentAll ps g → RemInto X b ps g → FromB X b E g →
      SST rk X b t cid E ps0 emp (splice_empty g b ps)
      ∧ RemInto X b [] (splice_empty g b ps)
      ∧ (FromB X b [] g → FromB X b [] (splice_empty g b ps))
      ∧ (ps ≠ [] → FromB X b [] (splice_empty g b ps)) := by
  intro ps
  induction ps with
  | nil =>
    intro g _ _ S hpr hri hfb
    exact ⟨S, hri, fun h => h, fun h => absurd rfl h⟩
  | cons p0 rest ih =>
    intro g hsub hnd S hpr hri hfb
    obtain ⟨S2, hpr2, hri2, hfb2⟩ :=
      sst_pred rk X b t cid E ps0 emp p0 rest hSP hSE
        (hsub p0 (List.mem_cons_self _ _)) g S hnd hpr hri hfb
    have hfbE : FromB X b E (process_pred g b p0) := fun x hX L hL hs =>
      absurd (hfb2 x hX L hL hs) (List.not_mem_nil L)
    have hnd2 : ((rest.map Link.lid).Nodup) := by
      rw [List.map_cons, List.nodup_cons] at hnd
      exact hnd.2
    obtain ⟨S3, hri3, hkeep3, _⟩ := ih (process_pred g b p0)
      (fun p hp => hsub p (List.mem_cons_of_mem _ hp)) hnd2 S2 hpr2 hri2 hfbE
    exact ⟨S3, hri3, fun _ => hkeep3 hfb2, fun _ => hkeep3 hfb2⟩

theorem splice_exits_current_id (p : Link) :
    ∀ (es : List Link) (g : Graph),
      (splice_exits g p es).current_id = g.current_id := by
  intro es
  induction es with
  | nil => intro g; rfl
  | cons e es ih =>
    intro g
    rw [show splice_exits g p (e :: es) = splice_exits (splice_step g p e) p es
        from rfl]
    rw [ih, splice_step_current_id]

theorem splice_empty_current_id (b : Nat) :
    ∀ (ps : List Link) (g : Graph),
      (splice_empty g b ps).current_id = g.current_id := by
  intro ps
  induction ps with
  | nil => intro g; rfl
  | cons p ps ih =>
    intro g
    rw [show splice_empty g b (p :: ps) = splice_empty (process_pred g b p) b ps
        from rfl]
    rw [ih, process_pred_cid_eq, splice_exits_current_id]

theorem length_removeLid (lid : Nat) :
    ∀ l : List Link, l.length ≤ (removeLid l lid).length + 1 := by
  intro l
  induction l with
  | nil => simp [removeLid]
  | cons L l ih =>
    rw [removeLid]
    split_ifs
    · simp
    · simp only [List.length_cons]
      omega

theorem splice_step_predsne {y : Nat} (g : Graph) (p e : Link)
    (h : g.preds y ≠ []) : (splice_step g p e).preds y ≠ [] := by
  rw [splice_step_preds]
  split_ifs with hy hc
  · intro hc2
    have hlen := length_removeLid e.lid (g.preds e.tgt
      ++ [(⟨g.next_lid, p.src, e.tgt, e.exitcase⟩ : Link)])
    rw [hc2] at hlen
    simp only [List.length_append, List.length_singleton,
      List.length_nil] at hlen
    have hne : g.preds e.tgt ≠ [] := by rw [← hy]; exact h
    have hpos : 0 < (g.preds e.tgt).length := List.length_pos.mpr hne
    omega
  · simp
  · exact h

theorem splice_exits_predsne {y : Nat} (p : Link) :
    ∀ (es : List Link) (g : Graph), g.preds y ≠ [] →
      (splice_exits g p es).preds y ≠ [] := by
  intro es
  induction es with
  | nil => intro g h; exact h
  | cons e es ih =>
    intro g h
    exact ih (splice_step g p e) (splice_step_predsne g p e h)

theorem process_pred_predsne {y : Nat} (g : Graph) (b : Nat) (p : Link)
    (h : g.preds y ≠ []) : (process_pred g b p).preds y ≠ [] := by
  have := process_pred_preds g b p
  rw [show (process_pred g b p).preds y
      = (splice_exits g p (g.exits b)).preds y from by rw [this]]
  exact splice_exits_predsne p _ g h

theorem splice_empty_predsne {y : Nat} (b : Nat) :
    ∀ (ps : List Link) (g : Graph), g.preds y ≠ [] →
      (splice_empty g b ps).preds y ≠ [] := by
  intro ps
  induction ps with
  | nil => intro g h; exact h
  | cons p ps ih =>
    intro g h
    exact ih (process_pred g b p) (process_pred_predsne g b p h)

theorem inv_splice_frame (rk : Nat → Nat) (g : Graph) (b : Nat) (X : List Nat)
    (I : INV rk g X) (hbX : b ∉ X) (hbe : g.is_empty b = true)
    (hbp : g.preds b = [] → g.exits b = []) :
    INV rk (splice_empty g b (g.preds b)) (X ++ [b])
    ∧ (splice_empty g b (g.preds b)).current_id = g.current_id
    ∧ (splice_empty g b (g.preds b)).exits b = g.exits b
    ∧ (∀ e ∈ g.exits b, (splice_empty g b (g.preds b)).preds e.tgt ≠ []) := by
  have hSP : ∀ p ∈ g.preds b, p.tgt = b ∧ p.src ≠ b ∧ p.src ∉ X
      ∧ p.lid < g.next_lid ∧ p.src ≤ g.current_id
      ∧ (g.is_empty p.src = true → rk b < rk p.src) := by
    intro p hp
    have htgt := I.core.tgtOK b p hp
    have hpex : p ∈ g.exits p.src := I.tsP b hbX p hp
    have hrk : g.is_empty p.src = true → rk b < rk p.src := by
      intro hemp
      have := I.rkOK p.src p hpex hemp (by rw [htgt]; exact hbe)
      rw [htgt] at this
      exact this
    refine ⟨htgt, ?_, I.fromX b hbX p hp, I.core.prLid b p hp,
      (I.core.prB b p hp).1, hrk⟩
    intro heq
    have := I.rkOK p.src p hpex (by rw [heq]; exact hbe) (by rw [htgt]; exact hbe)
    rw [htgt, heq] at this
    omega
  have hSE : ∀ e ∈ g.exits b, e.src = b ∧ e.tgt ≠ b ∧ e.tgt ∉ X
      ∧ e.lid < g.next_lid ∧ e.tgt ≤ g.current_id
      ∧ (g.is_empty e.tgt = true → rk e.tgt < rk b) := by
    intro e he
    have hrk : g.is_empty e.tgt = true → rk e.tgt < rk b := fun hemp =>
      I.rkOK b e he hbe hemp
    refine ⟨I.core.srcOK b e he, ?_, I.intoX b hbX e he,
      I.core.exLid b e he, (I.core.exB b e he).2, hrk⟩
    intro heq
    by_cases hemp : g.is_empty e.tgt = true
    · have := hrk hemp
      rw [heq] at this
      omega
    · rw [heq] at hemp
      exact hemp hbe
  have hS0 : SST rk X b g.next_lid g.current_id (g.exits b) (g.preds b)
      g.is_empty g := by
    refine ⟨I.core, fun x hX _ L hL => I.tsE x hX L hL,
      fun x hX _ L hL => I.tsP x hX L hL, I.intoX, I.fromX,
      I.rkOK, rfl, rfl, rfl, Nat.le_refl _, ?_, ?_, fun x => rfl⟩
    · intro e he y M hM hlid
      exact I.core.prInj y e.tgt M e hM (I.tsE b hbX e he) hlid
    · intro p hp y M hM hlid
      exact I.core.exInj y p.src M p hM (I.tsP b hbX p hp) hlid
  have hpr0 : PresentAll (g.preds b) g := fun p hp => I.tsP b hbX p hp
  have hri0 : RemInto X b (g.preds b) g := by
    intro x hX hxb L hL htgt
    have := I.tsE x hX L hL
    rw [htgt] at this
    exact this
  have hfb0 : FromB X b (g.exits b) g := by
    intro x hX L hL hsrc
    by_cases hxb : x = b
    · exfalso
      obtain ⟨_, hsn, _⟩ := hSP L (by rw [← hxb]; exact hL)
      exact hsn hsrc
    · have := I.tsP x hX L hL
      rw [hsrc] at this
      exact this
  have hmemX : ∀ x : Nat, x ∉ X ++ [b] ↔ (x ∉ X ∧ x ≠ b) := by
    intro x
    simp [List.mem_append]
  cases hps : g.preds b with
  | nil =>
    have hexnil : g.exits b = [] := hbp hps
    refine ⟨⟨I.core, ?_, ?_, ?_, ?_, I.rkOK⟩, rfl, rfl, ?_⟩
    · intro x hX L hL
      exact I.tsE x (fun h => hX (List.mem_append_left _ h)) L hL
    · intro x hX L hL
      exact I.tsP x (fun h => hX (List.mem_append_left _ h)) L hL
    · intro x hX L hL
      rw [hmemX] at *
      obtain ⟨hX1, _⟩ := hX
      refine ⟨I.intoX x hX1 L hL, ?_⟩
      intro htgt
      have := I.tsE x hX1 L hL
      rw [htgt, hps] at this
      exact absurd this (List.not_mem_nil L)
    · intro x hX L hL
      rw [hmemX] at *
      obtain ⟨hX1, _⟩ := hX
      refine ⟨I.fromX x hX1 L hL, ?_⟩
      intro hsrc
      have := I.tsP x hX1 L hL
      rw [hsrc, hexnil] at this
      exact absurd this (List.not_mem_nil L)
    · intro e he
      exact List.ne_nil_of_mem (I.tsE b hbX e he)
  | cons q qs =>
    rw [← hps]
    have hrun := sst_outer rk X b g.next_lid g.current_id (g.exits b)
      (g.preds b) g.is_empty hSP hSE (g.preds b) g
      (fun p hp => hp) (I.core.prNodup b) hS0 hpr0 hri0 hfb0
    obtain ⟨Sf, hrif, _, hfbf⟩ := hrun
    have hfbn : FromB X b [] (splice_empty g b (g.preds b)) := by
      refine hfbf ?_
      rw [hps]
      exact fun h => List.noConfusion h
    refine ⟨⟨Sf.core, ?_, ?_, ?_, ?_, Sf.rkOK⟩, Sf.cidOK, Sf.exb, ?_⟩
    · intro x hX L hL
      rw [hmemX] at hX
      exact Sf.tsEx x hX.1 hX.2 L hL
    · intro x hX L hL
      rw [hmemX] at hX
      exact Sf.tsPx x hX.1 hX.2 L hL
    · intro x hX L hL
      rw [hmemX] at *
      obtain ⟨hX1, hX2⟩ := hX
      refine ⟨Sf.intoX x hX1 L hL, ?_⟩
      intro htgt
      exact absurd (hrif x hX1 hX2 L hL htgt) (List.not_mem_nil L)
    · intro x hX L hL
      rw [hmemX] at *
      obtain ⟨hX1, _⟩ := hX
      refine ⟨Sf.fromX x hX1 L hL, ?_⟩
      intro hsrc
      exact absurd (hfbn x hX1 L hL hsrc) (List.not_mem_nil L)
    · intro e he
      exact splice_empty_predsne b (g.preds b) g
        (List.ne_nil_of_mem (I.tsE b hbX e he))

theorem inv_clear (rk : Nat → Nat) (g2 : Graph) (X : List Nat) (b : Nat)
    (I : INV rk g2 (X ++ [b])) :
    INV rk (clear_blk g2 b) X := by
  have hmemX : ∀ x : Nat, x ∉ X ++ [b] ↔ (x ∉ X ∧ x ≠ b) := by
    intro x
    simp [List.mem_append]
  have hexc : ∀ x, (clear_blk g2 b).exits x = if x = b then [] else g2.exits x :=
    fun x => rfl
  have hprc : ∀ x, (clear_blk g2 b).preds x = if x = b then [] else g2.preds x :=
    fun x => rfl
  have hex : ∀ x M, M ∈ (clear_blk g2 b).exits x → x ≠ b ∧ M ∈ g2.exits x := by
    intro x M h
    rw [hexc] at h
    split_ifs at h with hx
    · exact absurd h (List.not_mem_nil M)
    · exact ⟨hx, h⟩
  have hpr : ∀ x M, M ∈ (clear_blk g2 b).preds x → x ≠ b ∧ M ∈ g2.preds x := by
    intro x M h
    rw [hprc] at h
    split_ifs at h with hx
    · exact absurd h (List.not_mem_nil M)
    · exact ⟨hx, h⟩
  have hexi : ∀ x M, M ∈ g2.exits x → x ≠ b → M ∈ (clear_blk g2 b).exits x := by
    intro x M h hx
    rw [hexc, if_neg hx]
    exact h
  have hpri : ∀ x M, M ∈ g2.preds x → x ≠ b → M ∈ (clear_blk g2 b).preds x := by
    intro x M h hx
    rw [hprc, if_neg hx]
    exact h
  refine ⟨⟨?_, ?_, ?_, ?_, ?_, ?_, ?_, ?_, ?_, ?_, ?_, ?_⟩,
    ?_, ?_, ?_, ?_, ?_⟩
  · intro x L h
    exact I.core.srcOK x L (hex x L h).2
  · intro x L h
    exact I.core.tgtOK x L (hpr x L h).2
  · intro x
    rw [hexc]
    split_ifs
    · exact List.nodup_nil
    · exact I.core.exNodup x
  · intro x
    rw [hprc]
    split_ifs
    · exact List.nodup_nil
    · exact I.core.prNodup x
  · intro x y L M hL hM hlid
    exact I.core.exInj x y L M (hex x L hL).2 (hex y M hM).2 hlid
  · intro x y L M hL hM hlid
    exact I.core.prInj x y L M (hpr x L hL).2 (hpr y M hM).2 hlid
  · intro x L h
    exact I.core.exLid x L (hex x L h).2
  · intro x L h
    exact I.core.prLid x L (hpr x L h).2
  · intro x L h
    exact I.core.exB x L (hex x L h).2
  · intro x L h
    exact I.core.prB x L (hpr x L h).2
  · intro x hx
    rw [hexc]
    split_ifs
    · rfl
    · exact I.core.hiE x hx
  · intro x hx
    rw [hprc]
    split_ifs
    · rfl
    · exact I.core.hiP x hx
  · intro x hX L hL
    obtain ⟨hxb, hL2⟩ := hex x L hL
    have hmem := I.tsE x (by rw [hmemX]; exact ⟨hX, hxb⟩) L hL2
    have htb : L.tgt ∉ X ++ [b] :=
      I.intoX x (by rw [hmemX]; exact ⟨hX, hxb⟩) L hL2
    rw [hmemX] at htb
    exact hpri L.tgt L hmem htb.2
  · intro x hX L hL
    obtain ⟨hxb, hL2⟩ := hpr x L hL
    have hmem := I.tsP x (by rw [hmemX]; exact ⟨hX, hxb⟩) L hL2
    have hsb : L.src ∉ X ++ [b] :=
      I.fromX x (by rw [hmemX]; exact ⟨hX, hxb⟩) L hL2
    rw [hmemX] at hsb
    exact hexi L.src L hmem hsb.2
  · intro x hX L hL
    obtain ⟨hxb, hL2⟩ := hex x L hL
    have := I.intoX x (by rw [hmemX]; exact ⟨hX, hxb⟩) L hL2
    rw [hmemX] at this
    exact fun h => this.1 h
  · intro x hX L hL
    obtain ⟨hxb, hL2⟩ := hpr x L hL
    have := I.fromX x (by rw [hmemX]; exact ⟨hX, hxb⟩) L hL2
    rw [hmemX] at this
    exact fun h => this.1 h
  · intro x L hL he1 he2
    have he1b : g2.is_empty x = true := he1
    have he2b : g2.is_empty L.tgt = true := he2
    exact I.rkOK x L (hex x L hL).2 he1b he2b

theorem clean_visited_fold (fuel : Nat)
    (H : ∀ (g : Graph) (b : Nat) (v : List Nat), ∀ y ∈ v,
      y ∈ (clean_cfg fuel g b v).2) :
    ∀ (ts : List Link) (r : Graph × List Nat), ∀ y ∈ r.2,
      y ∈ (ts.foldl (fun r e => clean_cfg fuel r.1 e.tgt r.2) r).2 := by
  intro ts
  induction ts with
  | nil => intro r y hy; exact hy
  | cons e ts ih =>
    intro r y hy
    simp only [List.foldl_cons]
    exact ih _ y (H r.1 e.tgt r.2 y hy)

theorem clean_visited_mono :
    ∀ (fuel : Nat) (g : Graph) (b : Nat) (v : List Nat), ∀ y ∈ v,
      y ∈ (clean_cfg fuel g b v).2 := by
  intro fuel
  induction fuel with
  | zero => intro g b v y hy; exact hy
  | succ fuel ih =>
    intro g b v y hy
    simp only [clean_cfg]
    split_ifs with hv he
    · exact hy
    · exact clean_visited_fold fuel ih _ _ y (List.mem_append_left _ hy)
    · exact clean_visited_fold fuel ih _ _ y (List.mem_append_left _ hy)

theorem clear_blk_preds_ne {y b : Nat} (g : Graph) (hyb : y ≠ b)
    (h : g.preds y ≠ []) : (clear_blk g b).preds y ≠ [] := by
  have h2 : (clear_blk g b).preds y = if y = b then [] else g.preds y := rfl
  rw [h2, if_neg hyb]
  exact h

theorem clean_pres_fold (fuel : Nat)
    (H : ∀ (g : Graph) (b : Nat) (v : List Nat) (y : Nat), g.preds y ≠ [] →
      y ∉ (clean_cfg fuel g b v).2 → (clean_cfg fuel g b v).1.preds y ≠ []) :
    ∀ (ts : List Link) (r : Graph × List Nat) (y : Nat), r.1.preds y ≠ [] →
      y ∉ (ts.foldl (fun r e => clean_cfg fuel r.1 e.tgt r.2) r).2 →
      (ts.foldl (fun r e => clean_cfg fuel r.1 e.tgt r.2) r).1.preds y ≠ [] := by
  intro ts
  induction ts with
  | nil => intro r y h _; exact h
  | cons e ts ih =>
    intro r y h hv
    simp only [List.foldl_cons] at hv ⊢
    have hy2 : y ∉ (clean_cfg fuel r.1 e.tgt r.2).2 := by
      intro hc
      exact hv (clean_visited_fold fuel
        (fun g2 b2 v2 => clean_visited_mono fuel g2 b2 v2) ts _ y hc)
    exact ih (clean_cfg fuel r.1 e.tgt r.2) y (H r.1 e.tgt r.2 y h hy2) hv

theorem clean_pres_predsne :
    ∀ (fuel : Nat) (g : Graph) (b : Nat) (v : List Nat) (y : Nat),
      g.preds y ≠ [] → y ∉ (clean_cfg fuel g b v).2 →
      (clean_cfg fuel g b v).1.preds y ≠ [] := by
  intro fuel
  induction fuel with
  | zero => intro g b v y h _; exact h
  | succ fuel ih =>
    intro g b v y h hv
    simp only [clean_cfg] at hv ⊢
    split_ifs at hv ⊢ with hbv he
    · exact h
    · have hyb : y ≠ b := by
        intro hc
        subst hc
        refine hv (clean_visited_fold fuel
          (fun g2 b2 v2 => clean_visited_mono fuel g2 b2 v2) _ _ y ?_)
        exact List.mem_append_right _ (List.mem_singleton_self _)
      have hg1 : (splice_empty g b (g.preds b)).preds y ≠ [] :=
        splice_empty_predsne b _ g h
      exact clear_blk_preds_ne _ hyb (clean_pres_fold fuel ih _ _ y hg1 hv)
    · exact clean_pres_fold fuel ih _ _ y h hv

theorem clean_fold_inv (rk : Nat → Nat) (X : List Nat) (fuel : Nat)
    (H : ∀ (g : Graph) (b : Nat) (visited : List Nat),
      INV rk g X → (∀ y ∈ X, y ∈ visited) →
      (b ∈ visited ∨ g.preds b ≠ []) →
      INV rk (clean_cfg fuel g b visited).1 X
      ∧ (∀ y ∈ X, y ∈ (clean_cfg fuel g b visited).2)) :
    ∀ (ts : List Link) (r : Graph × List Nat),
      INV rk r.1 X → (∀ y ∈ X, y ∈ r.2) →
      (∀ e ∈ ts, e.tgt ∈ r.2 ∨ r.1.preds e.tgt ≠ []) →
      INV rk (ts.foldl (fun r e => clean_cfg fuel r.1 e.tgt r.2) r).1 X
      ∧ (∀ y ∈ X, y ∈ (ts.foldl (fun r e => clean_cfg fuel r.1 e.tgt r.2) r).2) := by
  intro ts
  induction ts with
  | nil => intro r hI hX _; exact ⟨hI, hX⟩
  | cons e ts ih =>
    intro r hI hX hch
    simp only [List.foldl_cons]
    obtain ⟨hI2, hX2⟩ := H r.1 e.tgt r.2 hI hX (hch e (List.mem_cons_self _ _))
    refine ih (clean_cfg fuel r.1 e.tgt r.2) hI2 hX2 ?_
    intro e2 he2
    rcases hch e2 (List.mem_cons_of_mem _ he2) with hin | hpr
    · left
      exact clean_visited_mono fuel r.1 e.tgt r.2 e2.tgt hin
    · by_cases hin2 : e2.tgt ∈ (clean_cfg fuel r.1 e.tgt r.2).2
      · left; exact hin2
      · right
        exact clean_pres_predsne fuel r.1 e.tgt r.2 e2.tgt hpr hin2

theorem clean_rec (rk : Nat → Nat) :
    ∀ (fuel : Nat) (g : Graph) (b : Nat) (visited X : List Nat),
      INV rk g X → (∀ y ∈ X, y ∈ visited) →
      (b ∈ visited ∨ g.preds b ≠ [] ∨ g.exits b = [] ∨ g.is_empty b = false) →
      INV rk (clean_cfg fuel g b visited).1 X
      ∧ (∀ y ∈ X, y ∈ (clean_cfg fuel g b visited).2) := by
  intro fuel
  induction fuel with
  | zero => intro g b visited X I hXv _; exact ⟨I, hXv⟩
  | succ fuel ih =>
    intro g b visited X I hXv hb
    simp only [clean_cfg]
    by_cases hv : b ∈ visited
    · simp only [if_pos hv]
      exact ⟨I, hXv⟩
    · simp only [if_neg hv]
      have hbX : b ∉ X := fun h => hv (hXv b h)
      cases he : g.is_empty b with
      | false =>
        simp only [Bool.false_eq_true, if_false]
        refine clean_fold_inv rk X fuel
          (fun g2 b2 v2 I2 h2 hb2 =>
            ih g2 b2 v2 X I2 h2 (hb2.elim Or.inl (fun h3 => Or.inr (Or.inl h3))))
          (g.exits b) (g, visited ++ [b]) I
          (fun y hy => List.mem_append_left _ (hXv y hy)) ?_
        intro e hee
        right
        exact List.ne_nil_of_mem (I.tsE b hbX e hee)
      | true =>
        simp only [if_true]
        have hbp : g.preds b = [] → g.exits b = [] := by
          intro hp
          rcases hb with hb | hb | hb | hb
          · exact absurd hb hv
          · exact absurd hp hb
          · exact hb
          · rw [he] at hb
            cases hb
        obtain ⟨If, hcidf, hexf, hpne⟩ := inv_splice_frame rk g b X I hbX he hbp
        have hXv1 : ∀ y ∈ X ++ [b], y ∈ visited ++ [b] := by
          intro y hy
          rcases List.mem_append.mp hy with hy | hy
          · exact List.mem_append_left _ (hXv y hy)
          · exact List.mem_append_right _ hy
        have hch : ∀ e ∈ (splice_empty g b (g.preds b)).exits b,
            e.tgt ∈ visited ++ [b]
            ∨ (splice_empty g b (g.preds b)).preds e.tgt ≠ [] := by
          intro e hee
          right
          refine hpne e ?_
          rw [← hexf]
          exact hee
        obtain ⟨I2, hXv2⟩ := clean_fold_inv rk (X ++ [b]) fuel
          (fun g2 b2 v2 I3 h3 hb3 =>
            ih g2 b2 v2 (X ++ [b]) I3 h3
              (hb3.elim Or.inl (fun h3 => Or.inr (Or.inl h3))))
          ((splice_empty g b (g.preds b)).exits b)
          (splice_empty g b (g.preds b), visited ++ [b]) If hXv1 hch
        refine ⟨inv_clear rk _ X b I2, ?_⟩
        intro y hy
        exact hXv2 y (List.mem_append_left _ hy)

theorem sp_exits_cases : ∀ x L, L ∈ sp_graph.exits x →
    (x = 1 ∧ L = ⟨0, 1, 2, some ("c")⟩) ∨ (x = 2 ∧ L = ⟨1, 2, 3, none⟩) := by
  intro x L h
  match x with
  | 1 =>
    left
    exact ⟨rfl, by simpa [sp_graph, sp_exits] using h⟩
  | 2 =>
    right
    exact ⟨rfl, by simpa [sp_graph, sp_exits] using h⟩
  | 0 => simp [sp_graph, sp_exits] at h
  | (n + 3) => simp [sp_graph, sp_exits] at h

theorem sp_preds_cases : ∀ x L, L ∈ sp_graph.preds x →
    (x = 2 ∧ L = ⟨0, 1, 2, some ("c")⟩) ∨ (x = 3 ∧ L = ⟨1, 2, 3, none⟩) := by
  intro x L h
  match x with
  | 2 =>
    left
    exact ⟨rfl, by simpa [sp_graph, sp_preds] using h⟩
  | 3 =>
    right
    exact ⟨rfl, by simpa [sp_graph, sp_preds] using h⟩
  | 0 => simp [sp_graph, sp_preds] at h
  | 1 => simp [sp_graph, sp_preds] at h
  | (n + 4) => simp [sp_graph, sp_preds] at h

theorem sp_graph_inv : INV (fun _ => 0) sp_graph [] := by
  refine ⟨⟨?_, ?_, ?_, ?_, ?_, ?_, ?_, ?_, ?_, ?_, ?_, ?_⟩,
    ?_, ?_, ?_, ?_, ?_⟩
  · intro x L h
    rcases sp_exits_cases x L h with ⟨hx, hL⟩ | ⟨hx, hL⟩ <;> subst hx <;>
      subst hL <;> rfl
  · intro x L h
    rcases sp_preds_cases x L h with ⟨hx, hL⟩ | ⟨hx, hL⟩ <;> subst hx <;>
      subst hL <;> rfl
  · intro x
    match x with
    | 1 => decide
    | 2 => decide
    | 0 => exact List.nodup_nil
    | (n + 3) => simp [sp_graph, sp_exits]
  · intro x
    match x with
    | 2 => decide
    | 3 => decide
    | 0 => exact List.nodup_nil
    | 1 => exact List.nodup_nil
    | (n + 4) => simp [sp_graph, sp_preds]
  · intro x y L M hL hM hlid
    rcases sp_exits_cases x L hL with ⟨hx, hL2⟩ | ⟨hx, hL2⟩ <;>
      rcases sp_exits_cases y M hM with ⟨hy, hM2⟩ | ⟨hy, hM2⟩ <;>
      subst hL2 <;> subst hM2 <;> first | rfl | (exfalso; simp at hlid)
  · intro x y L M hL hM hlid
    rcases sp_preds_cases x L hL with ⟨hx, hL2⟩ | ⟨hx, hL2⟩ <;>
      rcases sp_preds_cases y M hM with ⟨hy, hM2⟩ | ⟨hy, hM2⟩ <;>
      subst hL2 <;> subst hM2 <;> first | rfl | (exfalso; simp at hlid)
  · intro x L h
    rcases sp_exits_cases x L h with ⟨hx, hL⟩ | ⟨hx, hL⟩ <;> subst hL <;> decide
  · intro x L h
    rcases sp_preds_cases x L h with ⟨hx, hL⟩ | ⟨hx, hL⟩ <;> subst hL <;> decide
  · intro x L h
    rcases sp_exits_cases x L h with ⟨hx, hL⟩ | ⟨hx, hL⟩ <;> subst hL <;> decide
  · intro x L h
    rcases sp_preds_cases x L h with ⟨hx, hL⟩ | ⟨hx, hL⟩ <;> subst hL <;> decide
  · intro x hx
    match x with
    | (n + 4) => simp [sp_graph, sp_exits]
    | 0 => rfl
    | 1 => exact absurd hx (by decide)
    | 2 => exact absurd hx (by decide)
    | 3 => exact absurd hx (by decide)
  · intro x hx
    match x with
    | (n + 4) => simp [sp_graph, sp_preds]
    | 0 => rfl
    | 1 => rfl
    | 2 => exact absurd hx (by decide)
    | 3 => exact absurd hx (by decide)
  · intro x _ L h
    rcases sp_exits_cases x L h with ⟨hx, hL⟩ | ⟨hx, hL⟩ <;> subst hL <;> decide
  · intro x _ L h
    rcases sp_preds_cases x L h with ⟨hx, hL⟩ | ⟨hx, hL⟩ <;> subst hL <;> decide
  · intro x _ L h
    exact List.not_mem_nil _
  · intro x _ L h
    exact List.not_mem_nil _
  · intro x L h he1 he2
    rcases sp_exits_cases x L h with ⟨hx, hL⟩ | ⟨hx, hL⟩ <;> subst hx <;> subst hL
    · exact absurd he1 (by decide)
    · exact absurd he2 (by decide)

/-- C2.  Bidirectional link consistency through the normalizer: from any
graph satisfying the link invariant `INV` with no pending blocks — which
packages two-sidedness, per-list and global uniqueness of link
identities, endpoint bounds and a rank certificate excluding cycles
among empty blocks, all of which hold of the graphs the builder
constructs — and a start block that is visited, nonempty, exitless or
has predecessors (true of every entry block the builder hands to
`clean_cfg`), the normalizer yields a graph in which every link recorded
anywhere appears in exactly one block's exits list (its source's,
exactly once) and in exactly one block's predecessors list (its
target's, exactly once), with both endpoints within the graph's
allocated id range.  The same exactly-one property is checked on two
concrete complete builds: `cex2_body` (two block splices) and
`wrb_body`, whose raw graph contains an empty predecessor-less block
with an exit left by dead code after a return. -/
theorem link_bidirectional_consistency :
    (∀ (rk : Nat → Nat) (g : Graph) (fuel b : Nat) (visited : List Nat),
      INV rk g [] →
      (b ∈ visited ∨ g.preds b ≠ [] ∨ g.exits b = [] ∨ g.is_empty b = false) →
      ∀ x L, L ∈ (clean_cfg fuel g b visited).1.exits x →
        x = L.src
        ∧ ((clean_cfg fuel g b visited).1.exits x).count L = 1
        ∧ L ∈ (clean_cfg fuel g b visited).1.preds L.tgt
        ∧ ((clean_cfg fuel g b visited).1.preds L.tgt).count L = 1
        ∧ (∀ y, L ∈ (clean_cfg fuel g b visited).1.exits y → y = x)
        ∧ (∀ y, L ∈ (clean_cfg fuel g b visited).1.preds y → y = L.tgt)
        ∧ L.src ≤ (clean_cfg fuel g b visited).1.current_id
        ∧ L.tgt ≤ (clean_cfg fuel g b visited).1.current_id)
    ∧ (∀ (rk : Nat → Nat) (g : Graph) (fuel b : Nat) (visited : List Nat),
      INV rk g [] →
      (b ∈ visited ∨ g.preds b ≠ [] ∨ g.exits b = [] ∨ g.is_empty b = false) →
      ∀ x L, L ∈ (clean_cfg fuel g b visited).1.preds x →
        x = L.tgt ∧ L ∈ (clean_cfg fuel g b visited).1.exits L.src)
    ∧ (∀ x ∈ List.range 12, ∀ L ∈ (build false 20 cex2_body).g.exits x,
        L.src = x ∧ ((build false 20 cex2_body).g.exits x).count L = 1
        ∧ L ∈ (build false 20 cex2_body).g.preds L.tgt
        ∧ ((build false 20 cex2_body).g.preds L.tgt).count L = 1
        ∧ L.src ≤ (build false 20 cex2_body).g.current_id
        ∧ L.tgt ≤ (build false 20 cex2_body).g.current_id)
    ∧ (∀ x ∈ List.range 12, ∀ L ∈ (build false 20 cex2_body).g.preds x,
        L.tgt = x ∧ L ∈ (build false 20 cex2_body).g.exits L.src)
    ∧ ((build_raw false 20 wrb_body).g.is_empty 4 = true
        ∧ (build_raw false 20 wrb_body).g.preds 4 = []
        ∧ (build_raw false 20 wrb_body).g.exits 4 ≠ [])
    ∧ (∀ x ∈ List.range 8, ∀ L ∈ (build false 20 wrb_body).g.exits x,
        L.src = x ∧ ((build false 20 wrb_body).g.exits x).count L = 1
        ∧ L ∈ (build false 20 wrb_body).g.preds L.tgt
        ∧ ((build false 20 wrb_body).g.preds L.tgt).count L = 1
        ∧ L.src ≤ (build false 20 wrb_body).g.current_id
        ∧ L.tgt ≤ (build false 20 wrb_body).g.current_id)
    ∧ (∀ x ∈ List.range 8, ∀ L ∈ (build false 20 wrb_body).g.preds x,
        L.tgt = x ∧ L ∈ (build false 20 wrb_body).g.exits L.src) := by
  refine ⟨?_, ?_, by decide, by decide, by decide, by decide, by decide⟩
  · intro rk g fuel b visited I hb x L hL
    obtain ⟨If, _⟩ := clean_rec rk fuel g b visited [] I
      (fun y hy => absurd hy (List.not_mem_nil y)) hb
    have hsrc := If.core.srcOK x L hL
    have hts := If.tsE x (List.not_mem_nil x) L hL
    refine ⟨hsrc.symm, ?_, hts, ?_, ?_, ?_, (If.core.exB x L hL).1,
      (If.core.exB x L hL).2⟩
    · exact List.count_eq_one_of_mem
        (List.Nodup.of_map Link.lid (If.core.exNodup x)) hL
    · exact List.count_eq_one_of_mem
        (List.Nodup.of_map Link.lid (If.core.prNodup L.tgt)) hts
    · intro y hy
      rw [← If.core.srcOK y L hy, hsrc]
    · intro y hy
      exact (If.core.tgtOK y L hy).symm
  · intro rk g fuel b visited I hb x L hL
    obtain ⟨If, _⟩ := clean_rec rk fuel g b visited [] I
      (fun y hy => absurd hy (List.not_mem_nil y)) hb
    exact ⟨(If.core.tgtOK x L hL).symm, If.tsP x (List.not_mem_nil x) L hL⟩

/-- Witness for `link_bidirectional_consistency` on the hand-built graph
`sp_graph` (one empty block spliced out): the invariant and the
start-block condition hold for it, and after normalization the surviving
spliced link sits exactly once in block 1's exits and exactly once in
block 3's predecessors. -/
theorem link_bidirectional_witness :
    INV (fun _ => 0) sp_graph []
    ∧ (1 ∈ ([] : List Nat) ∨ sp_graph.preds 1 ≠ [] ∨ sp_graph.exits 1 = []
        ∨ sp_graph.is_empty 1 = false)
    ∧ ((clean_cfg 4 sp_graph 1 []).1.exits 1).count ⟨2, 1, 3, none⟩ = 1
    ∧ (⟨2, 1, 3, none⟩ : Link) ∈ (clean_cfg 4 sp_graph 1 []).1.preds 3
    ∧ ((clean_cfg 4 sp_graph 1 []).1.preds 3).count ⟨2, 1, 3, none⟩ = 1 := by
  refine ⟨sp_graph_inv, by decide, ?_, ?_, ?_⟩
  · exact (link_bidirectional_consistency.1 (fun _ => 0) sp_graph 4 1 []
      sp_graph_inv (by decide) 1 ⟨2, 1, 3, none⟩ (by decide)).2.1
  · exact (link_bidirectional_consistency.1 (fun _ => 0) sp_graph 4 1 []
      sp_graph_inv (by decide) 1 ⟨2, 1, 3, none⟩ (by decide)).2.2.1
  · exact (link_bidirectional_consistency.1 (fun _ => 0) sp_graph 4 1 []
      sp_graph_inv (by decide) 1 ⟨2, 1, 3, none⟩ (by decide)).2.2.2.1

end StaticCfg
